import Mathlib

/-!
# Verification of the script-to-subtitle alignment core

Shallow embedding of the alignment engine of the `unheardwhispers`
repository (`src/transcribe_to_srt.py` and `src/app.py`; the two files
contain textually identical copies of the core functions).  Python strings
are modelled as `List Char`, Python floats as `ℚ`, Python sets of ints as
`Finset ℕ`, fallible functions as `Option`.
-/

namespace UW

/-- ASCII case mapping used by `str.lower()`.  The source lowers text before
comparison; all inputs appearing in the development are ASCII, so the
ASCII fragment of Python's Unicode lowering is the exact behaviour. -/
def pyLowerChar (c : Char) : Char :=
  if 'A' ≤ c ∧ c ≤ 'Z' then Char.ofNat (c.toNat + 32) else c

/-- `s.lower()` on a Python string, character-wise (ASCII fragment). -/
def pyLower (s : List Char) : List Char := s.map pyLowerChar

/-! ## difflib.SequenceMatcher

`similarity_score` calls `SequenceMatcher(None, a, b).ratio()`
(src/transcribe_to_srt.py line 185).  The embedding below reproduces
difflib: the `b2j` index with the autojunk "popular element" rule, the
`find_longest_match` dynamic program with its four extension loops, and the
`get_matching_blocks` recursion (only the total matched size is needed for
`ratio`, and that total does not depend on the order blocks are listed). -/

/-- autojunk rule of `SequenceMatcher.__chain_b`: when `len(b) >= 200`,
characters occurring more than `len(b) // 100 + 1` times in `b` are
"popular" and removed from the `b2j` index. -/
def popularB (b : List Char) (c : Char) : Bool :=
  decide (200 ≤ b.length) && decide (b.length / 100 + 1 < (b.filter (· = c)).length)

/-- `b2j[c]`: ascending positions of `c` in `b`; empty for popular chars. -/
def posnsB (b : List Char) (c : Char) : List Nat :=
  if popularB b c then []
  else (List.range b.length).filter (fun j => decide (b.getD j ' ' = c))

/-- The `(besti, bestj, bestsize)` triple of `find_longest_match`. -/
structure FLMState where
  besti : Nat
  bestj : Nat
  bestsize : Nat
deriving Repr, DecidableEq

/-- Inner loop of one row of the `find_longest_match` dynamic program:
scan the candidate `j` positions in ascending order, hold the running best.
`m` is the previous row's `j2len` dictionary (total function, absent = 0);
the candidate length at `j` is `j2len.get(j-1, 0) + 1`.  In Python
`besti = i-k+1` with `k ≤ i+1` always, written `i+1-k` over `ℕ`. -/
def rowBest (i : Nat) (m : Nat → Nat) : List Nat → FLMState → FLMState
  | [], st => st
  | j :: js, st =>
      let k := (if j = 0 then 0 else m (j - 1)) + 1
      rowBest i m js (if st.bestsize < k then ⟨i + 1 - k, j + 1 - k, k⟩ else st)

/-- The new `j2len` dictionary produced by one row, as a total function. -/
def rowMap (js : List Nat) (m : Nat → Nat) : Nat → Nat :=
  fun j => if j ∈ js then (if j = 0 then 0 else m (j - 1)) + 1 else 0

/-- One row of the dynamic program: restrict the `b2j` positions of the
row's character to `[blo, bhi)` (the list is ascending, so difflib's
`continue`/`break` amount to this filter), update the best block and build
the new `j2len`. -/
def flmStep (a : List Char) (posns : Char → List Nat) (blo bhi : Nat)
    (st : FLMState × (Nat → Nat)) (i : Nat) : FLMState × (Nat → Nat) :=
  let js := (posns (a.getD i ' ')).filter
    (fun j => decide (blo ≤ j) && decide (j < bhi))
  (rowBest i st.2 js st.1, rowMap js st.2)

/-- The dynamic-programming part of `find_longest_match` over rows
`i ∈ [alo, ahi)`. -/
def flmDP (a : List Char) (posns : Char → List Nat) (alo ahi blo bhi : Nat) :
    FLMState :=
  ((List.range' alo (ahi - alo)).foldl (flmStep a posns blo bhi)
    (⟨alo, blo, 0⟩, fun _ => 0)).1

/-- Backward extension loop of `find_longest_match`; `want = false` is the
non-junk loop, `want = true` the junk loop.  The loop moves `besti` down by
one per iteration and stops at `alo`, so recursion on `besti` is the loop
itself (the `besti = 0` clause is the loop guard failing: `alo < 0` is
false). -/
def extendLow (a b : List Char) (junk : Char → Bool) (want : Bool)
    (alo blo : Nat) : Nat → Nat → Nat → FLMState
  | 0, bestj, bestsize => ⟨0, bestj, bestsize⟩
  | besti + 1, bestj, bestsize =>
      if alo < besti + 1 ∧ blo < bestj ∧ junk (b.getD (bestj - 1) ' ') = want ∧
          a.getD (besti + 1 - 1) ' ' = b.getD (bestj - 1) ' ' then
        extendLow a b junk want alo blo besti (bestj - 1) (bestsize + 1)
      else ⟨besti + 1, bestj, bestsize⟩

/-- Forward extension loop of `find_longest_match`, with the loop counter
`ahi - (besti + bestsize)` made explicit as fuel: the guard fails exactly
when the fuel is 0, so the unfolding is the Python loop. -/
def extendHighGo (a b : List Char) (junk : Char → Bool) (want : Bool)
    (ahi bhi besti bestj : Nat) : Nat → Nat → FLMState
  | 0, bestsize => ⟨besti, bestj, bestsize⟩
  | fuel + 1, bestsize =>
      if besti + bestsize < ahi ∧ bestj + bestsize < bhi ∧
          junk (b.getD (bestj + bestsize) ' ') = want ∧
          a.getD (besti + bestsize) ' ' = b.getD (bestj + bestsize) ' ' then
        extendHighGo a b junk want ahi bhi besti bestj fuel (bestsize + 1)
      else ⟨besti, bestj, bestsize⟩

/-- Forward extension loop of `find_longest_match`. -/
def extendHigh (a b : List Char) (junk : Char → Bool) (want : Bool)
    (ahi bhi : Nat) (besti bestj bestsize : Nat) : FLMState :=
  extendHighGo a b junk want ahi bhi besti bestj (ahi - (besti + bestsize))
    bestsize

/-- `find_longest_match(alo, ahi, blo, bhi)`: dynamic program, then the
four extension loops in source order (back/forward non-junk, then
back/forward junk).  `SequenceMatcher(None, …)` has an empty junk set. -/
def findLongestMatch (a b : List Char) (posns : Char → List Nat)
    (junk : Char → Bool) (alo ahi blo bhi : Nat) : FLMState :=
  let s0 := flmDP a posns alo ahi blo bhi
  let s1 := extendLow a b junk false alo blo s0.besti s0.bestj s0.bestsize
  let s2 := extendHigh a b junk false ahi bhi s1.besti s1.bestj s1.bestsize
  let s3 := extendLow a b junk true alo blo s2.besti s2.bestj s2.bestsize
  extendHigh a b junk true ahi bhi s3.besti s3.bestj s3.bestsize

/-- Total size of all matching blocks found by the `get_matching_blocks`
queue recursion (its traversal order only affects the order blocks are
reported, not their total size, which is all `ratio()` consumes).  `fuel`
bounds the recursion depth; every call made by `pyRatioQ` supplies more
fuel than the recursion can consume. -/
def matchingTotal (a b : List Char) (posns : Char → List Nat)
    (junk : Char → Bool) : Nat → Nat → Nat → Nat → Nat → Nat
  | 0, _, _, _, _ => 0
  | fuel + 1, alo, ahi, blo, bhi =>
      let s := findLongestMatch a b posns junk alo ahi blo bhi
      if s.bestsize = 0 then 0
      else s.bestsize
        + (if alo < s.besti ∧ blo < s.bestj then
            matchingTotal a b posns junk fuel alo s.besti blo s.bestj else 0)
        + (if s.besti + s.bestsize < ahi ∧ s.bestj + s.bestsize < bhi then
            matchingTotal a b posns junk fuel (s.besti + s.bestsize) ahi
              (s.bestj + s.bestsize) bhi else 0)

/-- Sum of the sizes of the matching blocks of `SequenceMatcher(None, a, b)`. -/
def seqTotal (a b : List Char) : Nat :=
  matchingTotal a b (posnsB b) (fun _ => false) (a.length + b.length + 1)
    0 a.length 0 b.length

/-- `SequenceMatcher(None, a, b).ratio() = 2*M / (len(a)+len(b))`, and `1.0`
when both strings are empty, as a rational.  Built with `mkRat` (the exact
value of the float division); `pyRatioQ_eq_div` below restates it as a
quotient. -/
def pyRatioQ (a b : List Char) : ℚ :=
  if a.length + b.length = 0 then 1
  else mkRat (2 * (seqTotal a b : ℤ)) (a.length + b.length)

/-- `similarity_score` (src/transcribe_to_srt.py lines 183-185):
`SequenceMatcher(None, text1.lower(), text2.lower()).ratio()`. -/
def similarity_score (text1 text2 : List Char) : ℚ :=
  pyRatioQ (pyLower text1) (pyLower text2)

/-! ### Matching a string against itself

For `ratio()` on identical strings the dynamic program always settles on a
diagonal block: the value the inner loop computes at cell `(i, j)` is
`chainSelf` below, every off-diagonal chain is dominated by a diagonal one
that is scanned no later, and the extension loops then grow a diagonal
block to the whole string. -/

/-- The `j2len` chain value at cell `(i, j)` of the dynamic program run on
`(c, c)` over the full ranges. -/
def chainSelf (c : List Char) : Nat → Nat → Nat
  | 0, j => if j ∈ posnsB c (c.getD 0 ' ') then 1 else 0
  | i + 1, j =>
      if j ∈ posnsB c (c.getD (i + 1) ' ') then
        (if j = 0 then 0 else chainSelf c i (j - 1)) + 1
      else 0

/-- The previous-row dictionary seen when row `i` of the self-run starts. -/
def chainPrev (c : List Char) : Nat → Nat → Nat
  | 0, _ => 0
  | i + 1, j => chainSelf c i j

/-- Invariant carried across the rows of the self-run: the best block sits
on the diagonal, fits in the string, and dominates every diagonal chain of
the rows already processed. -/
def GoodSt (c : List Char) (bound : Nat) (st : FLMState) : Prop :=
  st.besti = st.bestj ∧ st.besti + st.bestsize ≤ c.length ∧
    ∀ t, t < bound → chainSelf c t t ≤ st.bestsize

/-! ## String utilities shared by the chunker and the dialog extractor -/

/-- ASCII fragment of the Python whitespace class (`\s`, `str.split()`,
`str.strip()`): space, tab, newline, carriage return, vertical tab,
form feed. -/
def isPySpace (c : Char) : Bool :=
  c = ' ' || c = '\t' || c = '\n' || c = '\r' || c = '\x0b' || c = '\x0c'

/-- `s.split()`: maximal runs of non-whitespace, empties dropped.  One
structural pass with an accumulator holding the current word reversed. -/
def pySplitGo : List Char → List Char → List (List Char)
  | acc, [] => if acc = [] then [] else [acc.reverse]
  | acc, c :: rest =>
      if isPySpace c then
        if acc = [] then pySplitGo [] rest
        else acc.reverse :: pySplitGo [] rest
      else pySplitGo (c :: acc) rest

/-- `s.split()`. -/
def pySplit (s : List Char) : List (List Char) := pySplitGo [] s

/-- `s.strip()`: whitespace removed from both ends. -/
def pyStrip (s : List Char) : List Char :=
  ((s.dropWhile isPySpace).reverse.dropWhile isPySpace).reverse

/-- `' '.join(words)`. -/
def joinSpace (ws : List (List Char)) : List Char := List.intercalate [' '] ws

/-! ## Chunker (`chunk_sentence`, src/transcribe_to_srt.py lines 103-129) -/

structure ScriptChunk where
  character : List Char
  text : List Char
deriving Repr, DecidableEq

/-- Delimiter class of `re.split(r'[,;()]', sentence)`. -/
def isPunctDelim (c : Char) : Bool :=
  c = ',' || c = ';' || c = '(' || c = ')'

/-- Fixed-size windows `words[i:i+max_words]` for `i = 0, max_words, …`
(rule 3 of the chunker).  Python's `range(0, n, 0)` raises, so the
`max_words = 0` case never arises in runs this development reasons about;
it is mapped to `[]` here and every theorem touching rule 3 assumes
`0 < max_words`. -/
def wordWindowsGo (mw : Nat) : Nat → List (List Char) → List (List (List Char))
  | 0, _ => []
  | _, [] => []
  | fuel + 1, ws@(_ :: _) => ws.take mw :: wordWindowsGo mw fuel (ws.drop mw)

/-- The word windows of rule 3; each round consumes `mw ≥ 1` words, so
`ws.length` fuel is never exhausted. -/
def wordWindows (mw : Nat) (ws : List (List Char)) : List (List (List Char)) :=
  if mw = 0 then [] else wordWindowsGo mw ws.length ws

/-- `chunk_sentence(sentence, character, max_words)`. -/
def chunk_sentence (sentence character : List Char) (max_words : Nat) :
    List ScriptChunk :=
  if (pySplit sentence).length ≤ max_words then [⟨character, sentence⟩]
  else
    let phrases := ((sentence.splitOnP isPunctDelim).map pyStrip).filter (· ≠ [])
    if 1 < phrases.length then phrases.map (fun p => ⟨character, p⟩)
    else
      let words := pySplit sentence
      ((wordWindows max_words words).filter (· ≠ [])).map
        (fun w => ⟨character, joinSpace w⟩)

structure DialogLine where
  character : List Char
  text : List Char
deriving Repr, DecidableEq

/-- `break_dialog_into_chunks` (lines 131-145).  `nltk.sent_tokenize` is an
external capability (spec §2); it is taken as the parameter `sentTok`. -/
def break_dialog_into_chunks (sentTok : List Char → List (List Char))
    (dialog_lines : List DialogLine) (max_words : Nat) : List ScriptChunk :=
  dialog_lines.flatMap (fun line =>
    (sentTok line.text).flatMap (fun s => chunk_sentence s line.character max_words))

/-! ## Dialog Extractor (`extract_dialog_from_script`, lines 77-101)

The source runs `findall` of

  `([A-Z]+(?:\s[A-Z]+)*)(?:\s\([^)]*\))?:\s*(.*?)`
  `(?=\n\n|\n[A-Z]+(?:\s[A-Z]+)*(?:\s\([^)]*\))?:|\Z)`

with `re.DOTALL`.  For this particular pattern, greedy matching never
backtracks: shortening `[A-Z]+` or `(?:\s[A-Z]+)*` leaves a capital at the
head, which can start neither the optional aside (`\s\(`) nor `:`;
skipping a successful aside leaves whitespace at the head, which is not
`:`; and after the colon `\s*(.*?)(?=…|\Z)` always succeeds with maximal
`\s*`, because `.*?` can grow to the end where `\Z` holds.  The embedding
below is that deterministic matcher. -/

def isUpperAZ (c : Char) : Bool := decide ('A' ≤ c) && decide (c ≤ 'Z')

/-- `[A-Z]+` at the head: (matched, rest). -/
def takeCaps (s : List Char) : List Char × List Char :=
  (s.takeWhile isUpperAZ, s.dropWhile isUpperAZ)

/-- Greedy `(?:\s[A-Z]+)*` repetitions after an initial capitalized word.
Each round consumes the whitespace character and a non-empty capitalized
word, so `s.length + 1` fuel is never exhausted. -/
def labelRepsGo : Nat → List Char → List Char → List Char × List Char
  | 0, acc, s => (acc, s)
  | _ + 1, acc, [] => (acc, [])
  | fuel + 1, acc, sp :: rest =>
      if isPySpace sp then
        let w := rest.takeWhile isUpperAZ
        if w = [] then (acc, sp :: rest)
        else labelRepsGo fuel (acc ++ sp :: w) (rest.dropWhile isUpperAZ)
      else (acc, sp :: rest)

def labelReps (acc : List Char) (s : List Char) : List Char × List Char :=
  labelRepsGo (s.length + 1) acc s

/-- `(?:\s\([^)]*\))?` at the head; `some rest` when the aside matches. -/
def matchAside (s : List Char) : Option (List Char) :=
  match s with
  | sp :: c :: r =>
      if isPySpace sp ∧ c = '(' then
        match r.dropWhile (fun d => !(d = ')')) with
        | ')' :: r2 => some r2
        | _ => none
      else none
  | _ => none

/-- `[A-Z]+(?:\s[A-Z]+)*(?:\s\([^)]*\))?:` at the head:
`some (label, rest-after-colon)` on success. -/
def matchLabelColon (s : List Char) : Option (List Char × List Char) :=
  let (w, r) := takeCaps s
  if w = [] then none
  else
    let (label, r2) := labelReps w r
    match r2 with
    | ':' :: rest => some (label, rest)
    | _ =>
        match matchAside r2 with
        | some (':' :: rest) => some (label, rest)
        | _ => none

/-- The lookahead `(?=\n\n|\n[A-Z]+(?:\s[A-Z]+)*(?:\s\([^)]*\))?:|\Z)`. -/
def isBoundary (s : List Char) : Bool :=
  match s with
  | [] => true
  | '\n' :: '\n' :: _ => true
  | '\n' :: r => (matchLabelColon r).isSome
  | _ => false

/-- Lazy `(.*?)` up to the first position where the lookahead holds
(guaranteed to stop: the lookahead holds at `[]`). -/
def scanText : List Char → List Char → List Char × List Char
  | acc, [] => (acc.reverse, [])
  | acc, c :: r =>
      if isBoundary (c :: r) then (acc.reverse, c :: r)
      else scanText (c :: acc) r

/-- One anchored match attempt of the dialog pattern at the current
position: label + optional aside + colon, maximal `\s*`, then the lazy
text.  Returns `(group1, group2, rest-after-match)`. -/
def tryDialogMatch (s : List Char) : Option (List Char × List Char × List Char) :=
  match matchLabelColon s with
  | none => none
  | some (label, rest) =>
      let body := rest.dropWhile isPySpace
      let (text, after) := scanText [] body
      some (label, text, after)

/-- `findall` scan: try the pattern at every position left to right,
resuming after each (necessarily non-empty) match.  Each step consumes at
least one character, so `content.length + 1` fuel is never exhausted. -/
def scanDialog : Nat → List Char → List (List Char × List Char)
  | 0, _ => []
  | _, [] => []
  | fuel + 1, s@(_ :: tail) =>
      match tryDialogMatch s with
      | some (label, text, after) => (label, text) :: scanDialog fuel after
      | none => scanDialog fuel tail

/-- `re.sub(r'\n\s*', ' ', text)`: each newline together with the following
whitespace run becomes a single space.  Each round consumes at least one
character, so `s.length` fuel is never exhausted. -/
def collapseNLGo : Nat → List Char → List Char
  | 0, _ => []
  | _ + 1, [] => []
  | fuel + 1, c :: r =>
      if c = '\n' then ' ' :: collapseNLGo fuel (r.dropWhile isPySpace)
      else c :: collapseNLGo fuel r

def collapseNL (s : List Char) : List Char := collapseNLGo s.length s

/-- `extract_dialog_from_script` (src/transcribe_to_srt.py lines 77-101 /
src/app.py lines 94-119, which takes the content directly): run the scan,
then `character.strip()` and `re.sub(r'\n\s*', ' ', text.strip())`,
dropping records whose cleaned text is empty. -/
def extract_dialog_from_script (content : List Char) : List DialogLine :=
  (scanDialog (content.length + 1) content).filterMap (fun m =>
    let clean := collapseNL (pyStrip m.2)
    if clean = [] then none else some ⟨pyStrip m.1, clean⟩)

/-! ## Aligner (`process_segment_matching` lines 187-216,
`align_script_chunks_with_segments` lines 218-286) -/

structure Segment where
  start : ℚ
  stop : ℚ
  transcribed_text : List Char
deriving Repr, DecidableEq

/-- An element of the `aligned_segments` output list.  The Whisper-only
path (`whisper_segments_to_subtitles`) stores `character = None` and no
`match_score` key, modelled by `none`. -/
structure AlignedSeg where
  start : ℚ
  stop : ℚ
  text : List Char
  character : Option (List Char)
  match_score : Option ℚ
deriving Repr, DecidableEq

/-- `whisper_segments_to_subtitles` (lines 169-181). -/
def whisper_segments_to_subtitles (ws : List Segment) : List AlignedSeg :=
  ws.map (fun s => ⟨s.start, s.stop, s.transcribed_text, none, none⟩)

/-- Result dictionary of `process_segment_matching`.  In the source
`best_chunk = None ↔ best_index = -1` (both are only ever set together),
modelled as one `Option`. -/
structure MatchResult where
  segment : Segment
  best : Option (Nat × ScriptChunk)
  best_score : ℚ
deriving Repr, DecidableEq

/-- `process_segment_matching` (lines 187-216): scan chunks in index order,
skip consumed ones, keep the strictly best score (initialised to 0). -/
def process_segment_matching (script_chunks : List ScriptChunk)
    (used_chunks : Finset ℕ) (segment : Segment) : MatchResult :=
  let transcribed := pyLower segment.transcribed_text
  let r := script_chunks.enum.foldl
    (fun (st : Option (Nat × ScriptChunk) × ℚ) p =>
      if p.1 ∈ used_chunks then st
      else
        let score := similarity_score transcribed (pyLower p.2.text)
        if st.2 < score then (some p, score) else st)
    (none, 0)
  ⟨segment, r.1, r.2⟩

/-- The ascending-index fallback scan (`for i, chunk in enumerate(...): if
i not in used_chunks`) shared by both fallback sites. -/
def firstUnused (script_chunks : List ScriptChunk) (used : Finset ℕ) :
    Option (Nat × ScriptChunk) :=
  script_chunks.enum.find? (fun p => decide (p.1 ∉ used))

/-- One step of the sequential assignment phase (lines 238-284).  The
output records are paired with the claimed chunk index (the pairing is
bookkeeping for the statements; `align_script_chunks_with_segments` strips
it). -/
def assignStep (script_chunks : List ScriptChunk) (threshold : ℚ)
    (st : Finset ℕ × List (AlignedSeg × ℕ)) (r : MatchResult) :
    Finset ℕ × List (AlignedSeg × ℕ) :=
  let fallback : Finset ℕ × List (AlignedSeg × ℕ) :=
    match firstUnused script_chunks st.1 with
    | some (i, c) =>
        (insert i st.1,
          st.2 ++ [(⟨r.segment.start, r.segment.stop, c.text, some c.character,
            some 0⟩, i)])
    | none => st
  match r.best with
  | some (bi, bc) =>
      if threshold < r.best_score then
        if bi ∉ st.1 then
          (insert bi st.1,
            st.2 ++ [(⟨r.segment.start, r.segment.stop, bc.text,
              some bc.character, some r.best_score⟩, bi)])
        else fallback
      else fallback
  | none => fallback

/-- The batch loop of `align_script_chunks_with_segments`: score a batch of
`mw` segments against the consumption set as it stands when the batch
starts (the scoring tasks run in parallel but are pure and never touch the
set), then assign sequentially in segment order. -/
def alignGo (script_chunks : List ScriptChunk) (threshold : ℚ)
    (mw : Nat) : Nat → List Segment → Finset ℕ → List (AlignedSeg × ℕ)
  | 0, _, _ => []
  | _ + 1, [], _ => []
  | fuel + 1, segs@(_ :: _), used =>
      let results := (segs.take mw).map
        (process_segment_matching script_chunks used)
      let st := results.foldl (assignStep script_chunks threshold) (used, [])
      st.2 ++ alignGo script_chunks threshold mw fuel (segs.drop mw) st.1

/-- `align_script_chunks_with_segments`, instrumented with claimed chunk
indices.  `max_workers = 0` makes Python's `range(0, n, 0)` raise
`ValueError`, modelled as `none`. -/
def align_annotated (script_chunks : List ScriptChunk)
    (whisper_segments : List Segment) (threshold : ℚ) (max_workers : Nat) :
    Option (List (AlignedSeg × ℕ)) :=
  if 0 < max_workers then
    some (alignGo script_chunks threshold max_workers
      whisper_segments.length whisper_segments ∅)
  else none

/-- `align_script_chunks_with_segments(script_chunks, whisper_segments,
threshold, max_workers)` (lines 218-286). -/
def align_script_chunks_with_segments (script_chunks : List ScriptChunk)
    (whisper_segments : List Segment) (threshold : ℚ) (max_workers : Nat) :
    Option (List AlignedSeg) :=
  (align_annotated script_chunks whisper_segments threshold max_workers).map
    (fun l => l.map Prod.fst)

/-! ## Pipeline decision logic -/

/-- The subtitle-construction core of `transcribe_audio_to_srt`
(src/transcribe_to_srt.py lines 317-363), given the transcription result
and the optional script content; audio handling and file writing are
boundary collaborators.  Note line 342-344: an empty dialog list falls
back to the raw Whisper transcription and the run continues. -/
def transcribe_pipeline (sentTok : List Char → List (List Char))
    (script : Option (List Char)) (whisper_segments : List Segment) :
    Option (List AlignedSeg) :=
  if whisper_segments = [] then none
  else
    match script with
    | some content =>
        let dialog_lines := extract_dialog_from_script content
        if dialog_lines = [] then some (whisper_segments_to_subtitles whisper_segments)
        else
          some ((align_script_chunks_with_segments
            (break_dialog_into_chunks sentTok dialog_lines 10)
            whisper_segments (mkRat 3 10) 4).getD [])
    | none => some (whisper_segments_to_subtitles whisper_segments)

/-- The subtitle-construction core of `process_files` (src/app.py lines
335-409): an empty dialog list aborts the run (`return None`) before
transcription; an empty transcription also aborts. -/
def process_files_pipeline (sentTok : List Char → List (List Char))
    (script_content : List Char) (similarity_threshold : ℚ) (max_words : Nat)
    (whisper_segments : List Segment) : Option (List AlignedSeg) :=
  let dialog_lines := extract_dialog_from_script script_content
  if dialog_lines = [] then none
  else
    let chunks := break_dialog_into_chunks sentTok dialog_lines max_words
    if whisper_segments = [] then none
    else
      some ((align_script_chunks_with_segments chunks whisper_segments
        similarity_threshold 4).getD [])

/-- Head-recursive restatement of the scoring scan: keep the head when it
is unconsumed, scores positively and at least matches the best of the rest
(the left-to-right strict `>` keeps the earliest maximum). -/
def specBest (used : Finset ℕ) (T : List Char) :
    List (ℕ × ScriptChunk) → Option (ℕ × ScriptChunk) × ℚ
  | [] => (none, 0)
  | p :: rest =>
      let r := specBest used T rest
      if p.1 ∈ used then r
      else
        let s := similarity_score T (pyLower p.2.text)
        if 0 < s ∧ r.2 ≤ s then (some p, s) else r

/-- Soundness of a scan state. -/
def ScanInv (used : Finset ℕ) (T : List Char)
    (st : Option (ℕ × ScriptChunk) × ℚ) : Prop :=
  st = (none, 0) ∨
    (∃ p, st.1 = some p ∧ st.2 = similarity_score T (pyLower p.2.text) ∧
      0 < st.2 ∧ p.1 ∉ used)

/-! ## Claims C1, C4, C10: the batch loop -/

/-- Default values used with `List.getD` in positional statements. -/
def dSeg : Segment := ⟨0, 0, []⟩

def dRes : MatchResult := ⟨dSeg, none, 0⟩

def dPair : AlignedSeg × ℕ := (⟨0, 0, [], none, none⟩, 0)

def dAligned : AlignedSeg := ⟨0, 0, [], none, none⟩

/-- A scoring result only ever proposes in-range chunk indices. -/
def ValidR (C : ℕ) (r : MatchResult) : Prop :=
  ∀ bi bc, r.best = some (bi, bc) → bi < C

/-- Concrete data for the aligner witnesses. -/
def chunksA : List ScriptChunk :=
  [⟨"A".data, "ab".data⟩, ⟨"B".data, "cd".data⟩]

def segsA : List Segment :=
  [⟨0, 1, "ab".data⟩, ⟨2, 3, "zz".data⟩, ⟨4, 5, "cd".data⟩]

def outA : List AlignedSeg :=
  [⟨0, 1, "ab".data, some "A".data, some 1⟩,
   ⟨2, 3, "cd".data, some "B".data, some 0⟩]

def segsB : List Segment := [⟨0, 1, "ab".data⟩, ⟨2, 3, "cd".data⟩]

def pairsB : List (AlignedSeg × ℕ) :=
  [(⟨0, 1, "ab".data, some "A".data, some 1⟩, 0),
   (⟨2, 3, "cd".data, some "B".data, some 1⟩, 1)]

/-! ## Theorems -/

/-- `pyRatioQ` as the quotient `2*M / (len(a)+len(b))` of the source. -/
theorem pyRatioQ_eq_div (a b : List Char) :
    pyRatioQ a b = if a.length + b.length = 0 then 1
      else 2 * (seqTotal a b : ℚ) / ((a.length : ℚ) + (b.length : ℚ)) := by
  unfold pyRatioQ
  split
  · rfl
  · rw [Rat.mkRat_eq_div]
    push_cast
    ring_nf

theorem mem_posnsB {b : List Char} {ch : Char} {j : Nat} :
    j ∈ posnsB b ch ↔ popularB b ch = false ∧ j < b.length ∧ b.getD j ' ' = ch := by
  unfold posnsB
  by_cases h : popularB b ch <;>
    simp [h, List.mem_filter, List.mem_range, and_comm]

/-- Transport of index membership along the diagonal: any cell of the
self-run lies on a column whose own character admits the diagonal cell. -/
theorem diag_mem_of_mem {c : List Char} {i j : Nat}
    (h : j ∈ posnsB c (c.getD i ' ')) : j ∈ posnsB c (c.getD j ' ') := by
  rw [mem_posnsB] at h ⊢
  exact ⟨h.2.2 ▸ h.1, h.2.1, rfl⟩

theorem chainSelf_eq_chainPrev {c : List Char} (i j : Nat) :
    chainSelf c i j =
      if j ∈ posnsB c (c.getD i ' ') then
        (if j = 0 then 0 else chainPrev c i (j - 1)) + 1
      else 0 := by
  cases i with
  | zero => cases j <;> simp [chainSelf, chainPrev]
  | succ i => rfl

theorem chainSelf_pos_mem {c : List Char} {i j : Nat}
    (h : j ∈ posnsB c (c.getD i ' ')) : 0 < chainSelf c i j := by
  rw [chainSelf_eq_chainPrev, if_pos h]; omega

theorem chainSelf_eq_zero {c : List Char} {i j : Nat}
    (h : j ∉ posnsB c (c.getD i ' ')) : chainSelf c i j = 0 := by
  rw [chainSelf_eq_chainPrev, if_neg h]

/-- Diagonal cells step by one along a run of selectable characters. -/
theorem chainSelf_diag_succ {c : List Char} {j : Nat}
    (h : j + 1 ∈ posnsB c (c.getD (j + 1) ' ')) :
    chainSelf c (j + 1) (j + 1) = chainSelf c j j + 1 := by
  rw [chainSelf_eq_chainPrev, if_pos h]
  simp [chainPrev]

/-- A chain is no longer than the diagonal chain of its column. -/
theorem chainSelf_le_diag_col (c : List Char) :
    ∀ i j, chainSelf c i j ≤ chainSelf c j j := by
  intro i
  induction i with
  | zero =>
      intro j
      by_cases h : j ∈ posnsB c (c.getD 0 ' ')
      · have hd : j ∈ posnsB c (c.getD j ' ') := diag_mem_of_mem h
        have := chainSelf_pos_mem hd
        rw [chainSelf_eq_chainPrev 0 j, if_pos h]
        simp [chainPrev]; omega
      · rw [chainSelf_eq_zero h]; omega
  | succ i ih =>
      intro j
      by_cases h : j ∈ posnsB c (c.getD (i + 1) ' ')
      · have hd : j ∈ posnsB c (c.getD j ' ') := diag_mem_of_mem h
        rcases j with _ | j'
        · have := chainSelf_pos_mem hd
          rw [chainSelf_eq_chainPrev (i + 1) 0, if_pos h]
          simp; omega
        · have hstep : chainSelf c (j' + 1) (j' + 1) = chainSelf c j' j' + 1 :=
            chainSelf_diag_succ hd
          rw [chainSelf_eq_chainPrev (i + 1) (j' + 1), if_pos h, hstep]
          have := ih j'
          simp [chainPrev]; omega
      · rw [chainSelf_eq_zero h]; omega

/-- A chain is no longer than the diagonal chain of its row (rows are
indices into the string, so the row must be in range). -/
theorem chainSelf_le_diag_row (c : List Char) :
    ∀ i, i < c.length → ∀ j, chainSelf c i j ≤ chainSelf c i i := by
  intro i
  induction i with
  | zero =>
      intro hi j
      by_cases h : j ∈ posnsB c (c.getD 0 ' ')
      · have h0 : (0 : ℕ) ∈ posnsB c (c.getD 0 ' ') := by
          rw [mem_posnsB] at h ⊢
          exact ⟨h.1, hi, rfl⟩
        rw [chainSelf_eq_chainPrev 0 j, if_pos h,
          chainSelf_eq_chainPrev 0 0, if_pos h0]
        simp [chainPrev]
      · rw [chainSelf_eq_zero h]; omega
  | succ i ih =>
      intro hi j
      by_cases h : j ∈ posnsB c (c.getD (i + 1) ' ')
      · have hd : i + 1 ∈ posnsB c (c.getD (i + 1) ' ') := by
          rw [mem_posnsB] at h ⊢
          exact ⟨h.1, hi, rfl⟩
        rcases j with _ | j'
        · have := chainSelf_pos_mem hd
          rw [chainSelf_eq_chainPrev (i + 1) 0, if_pos h]
          simp; omega
        · have hstep : chainSelf c (i + 1) (i + 1) = chainSelf c i i + 1 :=
            chainSelf_diag_succ hd
          rw [chainSelf_eq_chainPrev (i + 1) (j' + 1), if_pos h, hstep]
          have := ih (by omega) j'
          simp [chainPrev]; omega
      · rw [chainSelf_eq_zero h]; omega

/-- A chain ending at row `i` has length at most `i + 1`. -/
theorem chainSelf_le_row_succ (c : List Char) :
    ∀ i j, chainSelf c i j ≤ i + 1 := by
  intro i
  induction i with
  | zero =>
      intro j
      rw [chainSelf_eq_chainPrev 0 j]
      split <;> simp [chainPrev]
  | succ i ih =>
      intro j
      rw [chainSelf_eq_chainPrev (i + 1) j]
      split
      · rcases j with _ | j'
        · simp
        · have := ih j'
          simp [chainPrev]; omega
      · omega

theorem posnsB_filter_id (b : List Char) (ch : Char) :
    (posnsB b ch).filter (fun j => decide (0 ≤ j) && decide (j < b.length)) =
      posnsB b ch := by
  apply List.filter_eq_self.mpr
  intro j hj
  rw [mem_posnsB] at hj
  simp [hj.2.1]

theorem posnsB_pairwise (b : List Char) (ch : Char) :
    (posnsB b ch).Pairwise (· < ·) := by
  unfold posnsB
  split
  · exact List.Pairwise.nil
  · exact (List.pairwise_lt_range _).filter _

/-- Row invariant of the self-run: scanning any ascending set of candidate
columns of row `i` keeps the best block diagonal. -/
theorem rowBest_inv (c : List Char) (i : Nat) (hi : i < c.length) :
    ∀ (js : List Nat) (st : FLMState),
      (∀ j ∈ js, j ∈ posnsB c (c.getD i ' ')) →
      js.Pairwise (· < ·) →
      GoodSt c i st →
      (i ∈ js ∨ chainSelf c i i ≤ st.bestsize) →
      GoodSt c (i + 1) (rowBest i (chainPrev c i) js st) := by
  intro js
  induction js with
  | nil =>
      intro st _ _ hst hdiag
      rcases hdiag with hmem | hle
      · exact absurd hmem (List.not_mem_nil i)
      · exact ⟨hst.1, hst.2.1, fun t ht => by
          rcases Nat.lt_succ_iff_lt_or_eq.mp ht with h | h
          · exact hst.2.2 t h
          · exact h ▸ hle⟩
  | cons j rest ih =>
      intro st hsub hpw hst hdiag
      have hjmem : j ∈ posnsB c (c.getD i ' ') := hsub j (by simp)
      have hk : (if j = 0 then 0 else chainPrev c i (j - 1)) + 1 =
          chainSelf c i j := by
        rw [chainSelf_eq_chainPrev, if_pos hjmem]
      rw [rowBest]
      by_cases hup : st.bestsize < (if j = 0 then 0 else chainPrev c i (j - 1)) + 1
      · -- an update happened; it can only be the diagonal cell
        have hkc : st.bestsize < chainSelf c i j := hk ▸ hup
        have hji : j = i := by
          rcases Nat.lt_trichotomy j i with h | h | h
          · exfalso
            have h1 : chainSelf c i j ≤ chainSelf c j j := chainSelf_le_diag_col c i j
            have h2 : chainSelf c j j ≤ st.bestsize := hst.2.2 j h
            omega
          · exact h
          · exfalso
            have hnr : i ∉ rest := fun hr => by
              have := (List.pairwise_cons.mp hpw).1 i hr
              omega
            have hch : chainSelf c i i ≤ st.bestsize := by
              rcases hdiag with hmem | hle
              · rcases List.mem_cons.mp hmem with he | hr
                · omega
                · exact absurd hr hnr
              · exact hle
            have h1 : chainSelf c i j ≤ chainSelf c i i :=
              chainSelf_le_diag_row c i hi j
            omega
        subst hji
        rw [if_pos hup]
        have hle1 : chainSelf c j j ≤ j + 1 := chainSelf_le_row_succ c j j
        have harith : j + 1 - chainSelf c j j + chainSelf c j j = j + 1 := by omega
        apply ih
        · intro x hx; exact hsub x (by simp [hx])
        · exact (List.pairwise_cons.mp hpw).2
        · refine ⟨rfl, ?_, ?_⟩
          · simp only [hk]; omega
          · intro t ht
            have := hst.2.2 t ht
            simp only [hk]; omega
        · right; simp only [hk]; omega
      · rw [if_neg hup]
        apply ih
        · intro x hx; exact hsub x (by simp [hx])
        · exact (List.pairwise_cons.mp hpw).2
        · exact hst
        · rcases hdiag with hmem | hle
          · rcases List.mem_cons.mp hmem with he | hr
            · subst he; right; omega
            · left; exact hr
          · right; exact hle

/-- The dynamic program of the self-run: after any prefix of the rows the
best block is diagonal and the `j2len` dictionary is `chainPrev`. -/
theorem flmDP_self_aux (c : List Char) :
    ∀ k, k ≤ c.length →
      GoodSt c k (((List.range' 0 k).foldl
        (flmStep c (posnsB c) 0 c.length) (⟨0, 0, 0⟩, fun _ => 0)).1) ∧
      (((List.range' 0 k).foldl
        (flmStep c (posnsB c) 0 c.length) (⟨0, 0, 0⟩, fun _ => 0)).2 =
        chainPrev c k) := by
  intro k
  induction k with
  | zero =>
      intro _
      refine ⟨⟨rfl, by simp, fun t ht => by omega⟩, ?_⟩
      funext j; rfl
  | succ k ih =>
      intro hk
      have hk' : k ≤ c.length := by omega
      obtain ⟨hgood, hmap⟩ := ih hk'
      have hconcat : List.range' 0 (k + 1) = List.range' 0 k ++ [k] := by
        have h := @List.range'_concat 1 0 k
        simpa using h
      rw [hconcat, List.foldl_append]
      set r := (List.range' 0 k).foldl
        (flmStep c (posnsB c) 0 c.length) (⟨0, 0, 0⟩, fun _ => 0) with hr
      simp only [List.foldl_cons, List.foldl_nil]
      rw [show flmStep c (posnsB c) 0 c.length r k =
        (rowBest k r.2 ((posnsB c (c.getD k ' ')).filter
          (fun j => decide (0 ≤ j) && decide (j < c.length))) r.1,
         rowMap ((posnsB c (c.getD k ' ')).filter
          (fun j => decide (0 ≤ j) && decide (j < c.length))) r.2) from rfl]
      rw [posnsB_filter_id, hmap]
      constructor
      · apply rowBest_inv c k (by omega) _ _ _ (posnsB_pairwise c _) hgood
        · by_cases hmem : k ∈ posnsB c (c.getD k ' ')
          · exact Or.inl hmem
          · exact Or.inr (by rw [chainSelf_eq_zero hmem]; omega)
        · intro j hj; exact hj
      · funext j
        simp only [rowMap]
        by_cases hmem : j ∈ posnsB c (c.getD k ' ')
        · rw [if_pos hmem]
          have := chainSelf_eq_chainPrev (c := c) k j
          rw [if_pos hmem] at this
          exact this.symm
        · rw [if_neg hmem]
          exact (chainSelf_eq_zero hmem).symm

/-- On identical strings the backward non-junk extension walks a diagonal
block down to the origin. -/
theorem extendLow_self (c : List Char) :
    ∀ d k, extendLow c c (fun _ => false) false 0 0 d d k = ⟨0, 0, d + k⟩ := by
  intro d
  induction d with
  | zero =>
      intro k
      simp [extendLow]
  | succ d ih =>
      intro k
      rw [extendLow, if_pos ⟨by omega, by omega, rfl, by simp⟩]
      simp only [Nat.add_sub_cancel]
      rw [ih (k + 1)]
      congr 1
      omega

/-- On identical strings the forward non-junk extension grows a block at
the origin to the whole string. -/
theorem extendHighGo_self (c : List Char) :
    ∀ m s, s + m = c.length →
      extendHighGo c c (fun _ => false) false c.length c.length 0 0 m s =
        ⟨0, 0, c.length⟩ := by
  intro m
  induction m with
  | zero =>
      intro s hs
      have hsc : s = c.length := by omega
      subst hsc
      rfl
  | succ m ih =>
      intro s hs
      rw [extendHighGo, if_pos ⟨by omega, by omega, rfl, rfl⟩]
      exact ih (s + 1) (by omega)

theorem extendHigh_self (c : List Char) (s : Nat) (hs : s ≤ c.length) :
    extendHigh c c (fun _ => false) false c.length c.length 0 0 s =
      ⟨0, 0, c.length⟩ := by
  unfold extendHigh
  have h0 : (0 : ℕ) + s = s := by omega
  rw [h0]
  exact extendHighGo_self c (c.length - s) s (by omega)

/-- The junk extension loops never fire for `SequenceMatcher(None, …)`. -/
theorem extendLow_junk_id (a b : List Char) (alo blo bi bj bs : Nat) :
    extendLow a b (fun _ => false) true alo blo bi bj bs = ⟨bi, bj, bs⟩ := by
  cases bi <;> simp [extendLow]

theorem extendHigh_junk_id (a b : List Char) (ahi bhi bi bj bs : Nat) :
    extendHigh a b (fun _ => false) true ahi bhi bi bj bs = ⟨bi, bj, bs⟩ := by
  unfold extendHigh
  cases h : ahi - (bi + bs) <;> simp [extendHighGo]

/-- `find_longest_match` on identical strings over the full ranges returns
the whole string. -/
theorem findLongestMatch_self (c : List Char) :
    findLongestMatch c c (posnsB c) (fun _ => false) 0 c.length 0 c.length =
      ⟨0, 0, c.length⟩ := by
  obtain ⟨hgood, -⟩ := flmDP_self_aux c c.length le_rfl
  set s0 := flmDP c (posnsB c) 0 c.length 0 c.length with hs0
  have hdp : s0 = flmDP c (posnsB c) 0 c.length 0 c.length := rfl
  clear_value s0
  have hfold : s0 = ((List.range' 0 c.length).foldl
      (flmStep c (posnsB c) 0 c.length) (⟨0, 0, 0⟩, fun _ => 0)).1 := by
    rw [hdp]; unfold flmDP; norm_num
  rw [← hfold] at hgood
  obtain ⟨hdiag, hfit, -⟩ := hgood
  simp only [findLongestMatch]
  rw [← hs0]
  have h1 : extendLow c c (fun _ => false) false 0 0 s0.besti s0.bestj
      s0.bestsize = ⟨0, 0, s0.besti + s0.bestsize⟩ := by
    rw [← hdiag]; exact extendLow_self c s0.besti s0.bestsize
  rw [h1]
  have h2 : extendHigh c c (fun _ => false) false c.length c.length 0 0
      (s0.besti + s0.bestsize) = ⟨0, 0, c.length⟩ :=
    extendHigh_self c (s0.besti + s0.bestsize) hfit
  rw [h2, extendLow_junk_id, extendHigh_junk_id]

/-- Total matched size of the self-run: the whole string. -/
theorem seqTotal_self (c : List Char) (hc : c ≠ []) : seqTotal c c = c.length := by
  have hn : 0 < c.length := List.length_pos.mpr hc
  unfold seqTotal
  rw [show c.length + c.length + 1 = (c.length + c.length) + 1 from rfl]
  rw [matchingTotal]
  rw [findLongestMatch_self c]
  simp only
  rw [if_neg (by omega)]
  rw [if_neg (by omega), if_neg (by omega)]
  omega

/-! ## Claims C7 and C8: the similarity scorer -/

/-- C7 (counterexample): the scorer is not symmetric.  On `"ab"` against
`"bacb"` difflib first matches the `"a"`, splitting `"bacb"` so that both
`"a"` and one `"b"` are matched (total 2, ratio 2/3); in the other order it
first matches the leading `"b"` of `"bacb"` against the trailing `"b"` of
`"ab"`, leaving nothing else matchable (total 1, ratio 1/3). -/
theorem C7_counterexample :
    similarity_score "ab".data "bacb".data = 2/3 ∧
    similarity_score "bacb".data "ab".data = 1/3 ∧
    similarity_score "ab".data "bacb".data ≠
      similarity_score "bacb".data "ab".data := by
  have h1 : similarity_score "ab".data "bacb".data = mkRat 4 6 := by decide
  have h2 : similarity_score "bacb".data "ab".data = mkRat 2 6 := by decide
  refine ⟨?_, ?_, ?_⟩
  · rw [h1, Rat.mkRat_eq_div]; norm_num
  · rw [h2, Rat.mkRat_eq_div]; norm_num
  · rw [h1, h2]; decide

/-- C8: a non-empty string scored against itself gets exactly 1:
the dynamic program's best block lies on the diagonal, the extension loops
grow it to the whole string, so the matched total is the full length and
`ratio = 2n/(n+n) = 1`. -/
theorem similarity_score_self (a : List Char) (h : a ≠ []) :
    similarity_score a a = 1 := by
  unfold similarity_score pyRatioQ
  have hl : pyLower a ≠ [] := by simpa [pyLower] using h
  have hn : 0 < (pyLower a).length := List.length_pos.mpr hl
  rw [if_neg (by omega), seqTotal_self _ hl, Rat.mkRat_eq_div]
  have hq : (((pyLower a).length : ℚ)) ≠ 0 := Nat.cast_ne_zero.mpr (by omega)
  push_cast
  field_simp
  ring

/-- C8 witness: evaluated at the concrete string "Hello". -/
theorem similarity_score_self_witness :
    "Hello".data ≠ ([] : List Char) ∧
      similarity_score "Hello".data "Hello".data = 1 :=
  ⟨by decide, similarity_score_self "Hello".data (by decide)⟩

/-- C7 (amended): symmetry holds whenever the two lowered strings are
equal; in general the greedy tie-breaking of `find_longest_match` makes the
matched total depend on the argument order, so full symmetry fails (see the
counterexample). -/
theorem similarity_score_symm_of_lower_eq (a b : List Char)
    (h : pyLower a = pyLower b) :
    similarity_score a b = similarity_score b a := by
  unfold similarity_score
  rw [h]

/-- C7 amended witness: two distinct strings with equal lowerings. -/
theorem similarity_score_symm_of_lower_eq_witness :
    pyLower "Ab".data = pyLower "aB".data ∧
      similarity_score "Ab".data "aB".data =
        similarity_score "aB".data "Ab".data :=
  ⟨by decide, similarity_score_symm_of_lower_eq "Ab".data "aB".data (by decide)⟩

/-! ## Claim C9: the chunker's length bound -/

theorem pySplitGo_words (s : List Char) :
    ∀ acc, (∀ ch ∈ acc, isPySpace ch = false) →
      ∀ w ∈ pySplitGo acc s, w ≠ [] ∧ ∀ ch ∈ w, isPySpace ch = false := by
  induction s with
  | nil =>
      intro acc hacc w hw
      by_cases h : acc = []
      · simp [pySplitGo, h] at hw
      · simp only [pySplitGo, if_neg h, List.mem_singleton] at hw
        subst hw
        exact ⟨by simpa using h, fun ch hch => hacc ch (by simpa using hch)⟩
  | cons c rest ih =>
      intro acc hacc w hw
      by_cases hc : isPySpace c
      · by_cases h : acc = []
        · simp only [pySplitGo, if_pos hc, if_pos h] at hw
          exact ih [] (by simp) w hw
        · simp only [pySplitGo, if_pos hc, if_neg h, List.mem_cons] at hw
          rcases hw with hw | hw
          · subst hw
            exact ⟨by simpa using h, fun ch hch => hacc ch (by simpa using hch)⟩
          · exact ih [] (by simp) w hw
      · simp only [pySplitGo, if_neg hc] at hw
        refine ih (c :: acc) ?_ w hw
        intro ch hch
        rcases List.mem_cons.mp hch with h | h
        · subst h; simpa using hc
        · exact hacc ch h

/-- Every word of `s.split()` is non-empty and whitespace-free. -/
theorem pySplit_words (s : List Char) :
    ∀ w ∈ pySplit s, w ≠ [] ∧ ∀ ch ∈ w, isPySpace ch = false :=
  pySplitGo_words s [] (by simp)

theorem pySplitGo_append (w : List Char) (hw : ∀ ch ∈ w, isPySpace ch = false) :
    ∀ acc t, pySplitGo acc (w ++ t) = pySplitGo (w.reverse ++ acc) t := by
  induction w with
  | nil => intro acc t; simp
  | cons c w' ih =>
      intro acc t
      have hc : isPySpace c = false := hw c (by simp)
      simp only [List.cons_append, pySplitGo, hc, Bool.false_eq_true, if_false]
      rw [show (w'.append t) = w' ++ t from rfl,
        ih (fun ch hch => hw ch (by simp [hch])) (c :: acc) t]
      simp

/-- Splitting the space-join of non-empty whitespace-free words recovers
the words. -/
theorem pySplit_joinSpace :
    ∀ ws : List (List Char),
      (∀ w ∈ ws, w ≠ [] ∧ ∀ ch ∈ w, isPySpace ch = false) →
      pySplit (joinSpace ws) = ws := by
  intro ws
  induction ws with
  | nil => intro _; rfl
  | cons w rest ih =>
      intro h
      obtain ⟨hne, hns⟩ := h w (by simp)
      rcases rest with _ | ⟨w2, rest'⟩
      · show pySplitGo [] (List.intercalate [' '] [w]) = [w]
        rw [show List.intercalate [' '] [w] = w by simp [List.intercalate]]
        rw [show w = w ++ [] by simp, pySplitGo_append w hns [] []]
        simp [pySplitGo, hne]
      · show pySplitGo [] (List.intercalate [' '] (w :: w2 :: rest')) =
          w :: w2 :: rest'
        rw [show List.intercalate [' '] (w :: w2 :: rest') =
          w ++ ' ' :: List.intercalate [' '] (w2 :: rest') by
            simp [List.intercalate, List.intersperse]]
        rw [pySplitGo_append w hns []]
        have hsp : isPySpace ' ' = true := rfl
        simp only [pySplitGo, hsp, if_true, List.append_nil]
        rw [if_neg (by simpa using hne)]
        rw [show (w.reverse).reverse = w by simp]
        have := ih (fun x hx => h x (by simp [hx]))
        rw [show pySplitGo [] (List.intercalate [' '] (w2 :: rest')) =
          pySplit (joinSpace (w2 :: rest')) from rfl, this]

theorem wordWindowsGo_bound (mw : Nat) :
    ∀ fuel ws, ∀ w ∈ wordWindowsGo mw fuel ws,
      w.length ≤ mw ∧ ∀ x ∈ w, x ∈ ws := by
  intro fuel
  induction fuel with
  | zero => intro ws w hw; simp [wordWindowsGo] at hw
  | succ fuel ih =>
      intro ws w hw
      rcases ws with _ | ⟨x, ws'⟩
      · simp [wordWindowsGo] at hw
      · simp only [wordWindowsGo, List.mem_cons] at hw
        rcases hw with hw | hw
        · subst hw
          exact ⟨by simpa using List.length_take_le mw (x :: ws'),
            fun y hy => List.mem_of_mem_take hy⟩
        · obtain ⟨h1, h2⟩ := ih ((x :: ws').drop mw) w hw
          exact ⟨h1, fun y hy => List.mem_of_mem_drop (h2 y hy)⟩

/-- C9: for `maxWords ≥ 1`, every chunk emitted by rule 1 (sentence within
the limit) or rule 3 (word windows) of `chunk_sentence` has at most
`maxWords` words; the hypothesis `hrule` states that the rule-2 branch
(punctuation phrases, exempt from the bound) was not taken. -/
theorem chunk_sentence_length_bound (sentence character : List Char)
    (max_words : Nat) (hmw : 0 < max_words)
    (hrule : (pySplit sentence).length ≤ max_words ∨
      ¬ 1 < (((sentence.splitOnP isPunctDelim).map pyStrip).filter
        (· ≠ [])).length) :
    ∀ ck ∈ chunk_sentence sentence character max_words,
      (pySplit ck.text).length ≤ max_words := by
  intro ck hck
  unfold chunk_sentence at hck
  by_cases h1 : (pySplit sentence).length ≤ max_words
  · rw [if_pos h1] at hck
    simp only [List.mem_singleton] at hck
    subst hck
    exact h1
  · rw [if_neg h1] at hck
    have h2 : ¬ 1 < (((sentence.splitOnP isPunctDelim).map pyStrip).filter
        (· ≠ [])).length := by
      rcases hrule with h | h
      · exact absurd h h1
      · exact h
    rw [if_neg h2] at hck
    simp only [List.mem_map, List.mem_filter] at hck
    obtain ⟨w, ⟨hwmem, hwne⟩, hw⟩ := hck
    obtain ⟨hlen, hsubset⟩ := wordWindowsGo_bound max_words
      (pySplit sentence).length (pySplit sentence) w
      (by
        unfold wordWindows at hwmem
        rw [if_neg (by omega)] at hwmem
        exact hwmem)
    have hwords : ∀ x ∈ w, x ≠ [] ∧ ∀ ch ∈ x, isPySpace ch = false :=
      fun x hx => pySplit_words sentence x (hsubset x hx)
    rw [← hw]
    show (pySplit (joinSpace w)).length ≤ max_words
    rw [pySplit_joinSpace w hwords]
    exact hlen

/-- C9 witness: rule 3 at `maxWords = 3` on a 7-word sentence with no
punctuation splits. -/
theorem chunk_sentence_length_bound_witness :
    (0 < 3 ∧ ((pySplit "a b c d e f g".data).length ≤ 3 ∨
      ¬ 1 < ((("a b c d e f g".data.splitOnP isPunctDelim).map pyStrip).filter
        (· ≠ [])).length)) ∧
    ∀ ck ∈ chunk_sentence "a b c d e f g".data "A".data 3,
      (pySplit ck.text).length ≤ 3 :=
  ⟨⟨by decide, by decide⟩,
    chunk_sentence_length_bound "a b c d e f g".data "A".data 3
      (by decide) (by decide)⟩

/-! ## Claim C2: the scoring phase -/

/-- The scorer never returns a negative value. -/
theorem similarity_score_nonneg (a b : List Char) :
    0 ≤ similarity_score a b := by
  unfold similarity_score
  rw [pyRatioQ_eq_div]
  split
  · norm_num
  · have h1 : (0:ℚ) ≤ 2 * (seqTotal (pyLower a) (pyLower b) : ℚ) := by
      have := Nat.cast_nonneg (α := ℚ) (seqTotal (pyLower a) (pyLower b))
      linarith
    have h2 : (0:ℚ) ≤ ((pyLower a).length : ℚ) + ((pyLower b).length : ℚ) := by
      have := Nat.cast_nonneg (α := ℚ) (pyLower a).length
      have := Nat.cast_nonneg (α := ℚ) (pyLower b).length
      linarith
    exact div_nonneg h1 h2

theorem scanInv_nonneg {used T st} (h : ScanInv used T st) : 0 ≤ st.2 := by
  rcases h with h | ⟨p, -, -, hpos, -⟩
  · rw [h]
  · linarith

theorem specBest_scanInv (used : Finset ℕ) (T : List Char) :
    ∀ l, ScanInv used T (specBest used T l) := by
  intro l
  induction l with
  | nil => exact Or.inl rfl
  | cons p rest ih =>
      by_cases hu : p.1 ∈ used
      · simpa [specBest, hu] using ih
      · simp only [specBest, if_neg hu]
        split
        · next hcond =>
            exact Or.inr ⟨p, rfl, rfl, hcond.1, hu⟩
        · exact ih

/-- The scoring fold equals `specBest` merged with the incoming state,
earlier state winning ties. -/
theorem foldl_scan_eq_spec (used : Finset ℕ) (T : List Char) :
    ∀ (l : List (ℕ × ScriptChunk)) (st : Option (ℕ × ScriptChunk) × ℚ),
      ScanInv used T st →
      l.foldl
        (fun st p =>
          if p.1 ∈ used then st
          else
            let score := similarity_score T (pyLower p.2.text)
            if st.2 < score then (some p, score) else st)
        st =
      (if st.2 < (specBest used T l).2 then specBest used T l else st) := by
  intro l
  induction l with
  | nil =>
      intro st hst
      have := scanInv_nonneg hst
      simp only [List.foldl_nil, specBest]
      rw [if_neg (not_lt.mpr this)]
  | cons p rest ih =>
      intro st hst
      rw [List.foldl_cons]
      by_cases hu : p.1 ∈ used
      · simp only [if_pos hu]
        rw [ih st hst]
        simp only [specBest, if_pos hu]
      · simp only [if_neg hu]
        set s := similarity_score T (pyLower p.2.text) with hs
        set r' := specBest used T rest with hr'
        have hr'nonneg : 0 ≤ r'.2 :=
          scanInv_nonneg (hr' ▸ specBest_scanInv used T rest)
        have hstn : 0 ≤ st.2 := scanInv_nonneg hst
        by_cases hup : st.2 < s
        · have hinv2 : ScanInv used T (some p, s) :=
            Or.inr ⟨p, rfl, rfl, by linarith, hu⟩
          rw [if_pos hup, ih (some p, s) hinv2]
          simp only [specBest, if_neg hu, ← hs, ← hr']
          by_cases hc : r'.2 ≤ s
          · rw [if_pos (⟨by linarith, hc⟩ : 0 < s ∧ r'.2 ≤ s)]
            dsimp only
            rw [if_neg (show ¬ s < r'.2 by linarith),
              if_pos (show st.2 < s from hup)]
          · have hsr : s < r'.2 := lt_of_not_le hc
            rw [if_neg (show ¬ (0 < s ∧ r'.2 ≤ s) by
                rw [not_and_or]; right; linarith)]
            dsimp only
            rw [if_pos (show s < r'.2 from hsr),
              if_pos (show st.2 < r'.2 by linarith)]
        · rw [if_neg hup, ih st hst]
          simp only [specBest, if_neg hu, ← hs, ← hr']
          by_cases hc : 0 < s ∧ r'.2 ≤ s
          · rw [if_pos hc]
            dsimp only
            have hns : ¬ st.2 < s := hup
            rw [if_neg (show ¬ st.2 < s from hns),
              if_neg (show ¬ st.2 < r'.2 by
                obtain ⟨-, h2⟩ := hc
                have := not_lt.mp hup
                linarith)]
          · rw [if_neg hc]

/-- Dominance: every unconsumed candidate scores at most the spec best. -/
theorem specBest_dominates (used : Finset ℕ) (T : List Char) :
    ∀ l, ∀ p ∈ l, p.1 ∉ used →
      similarity_score T (pyLower p.2.text) ≤ (specBest used T l).2 := by
  intro l
  induction l with
  | nil => intro p hp; simp at hp
  | cons q rest ih =>
      intro p hp hpu
      have hnn : 0 ≤ similarity_score T (pyLower p.2.text) :=
        similarity_score_nonneg _ _
      rcases List.mem_cons.mp hp with he | hr
      · subst he
        simp only [specBest, if_neg hpu]
        split
        · dsimp only; exact le_refl _
        · next hc =>
            rw [not_and_or] at hc
            have := scanInv_nonneg (specBest_scanInv used T rest)
            rcases hc with hc | hc
            · have := not_lt.mp hc; linarith
            · have := not_le.mp hc; linarith
      · have := ih p hr hpu
        by_cases hu : q.1 ∈ used
        · simpa [specBest, hu] using this
        · simp only [specBest, if_neg hu]
          split
          · next hc => dsimp only; obtain ⟨h1, h2⟩ := hc; linarith
          · exact this

/-- When the spec best is `none`, nothing unconsumed scored positively. -/
theorem specBest_none (used : Finset ℕ) (T : List Char) :
    ∀ l, (specBest used T l).1 = none →
      (specBest used T l).2 = 0 ∧
      ∀ p ∈ l, p.1 ∉ used → similarity_score T (pyLower p.2.text) ≤ 0 := by
  intro l hnone
  have hinv := specBest_scanInv used T l
  rcases hinv with h | ⟨p, hp, -, -, -⟩
  · refine ⟨by rw [h], fun p hp hpu => ?_⟩
    have := specBest_dominates used T l p hp hpu
    rw [h] at this
    exact this
  · rw [hnone] at hp; exact absurd hp (by simp)

/-- Earliest-maximum tie-break: every unconsumed candidate with a smaller
index than the winner scores strictly less (indices ascend along the
scan). -/
theorem specBest_earliest (used : Finset ℕ) (T : List Char) :
    ∀ l, l.Pairwise (fun a b => a.1 < b.1) →
      ∀ i c, (specBest used T l).1 = some (i, c) →
      ∀ p ∈ l, p.1 ∉ used → p.1 < i →
        similarity_score T (pyLower p.2.text) < (specBest used T l).2 := by
  intro l
  induction l with
  | nil => intro _ i c h; simp [specBest] at h
  | cons q rest ih =>
      intro hpw i c hpick p hp hpu hpi
      have hpwr := (List.pairwise_cons.mp hpw).2
      by_cases hu : q.1 ∈ used
      · simp only [specBest, if_pos hu] at hpick ⊢
        rcases List.mem_cons.mp hp with he | hr
        · subst he
          exact absurd hu hpu
        · exact ih hpwr i c hpick p hr hpu hpi
      · simp only [specBest, if_neg hu] at hpick ⊢
        by_cases hcond : 0 < similarity_score T (pyLower q.2.text) ∧
            (specBest used T rest).2 ≤ similarity_score T (pyLower q.2.text)
        · rw [if_pos hcond] at hpick ⊢
          dsimp only at hpick
          have hq : q = (i, c) := by
            have := Option.some.injEq q (i, c) ▸ hpick
            simpa using hpick
          have hq1 : q.1 = i := by rw [hq]
          rcases List.mem_cons.mp hp with he | hr
          · subst he; omega
          · have := (List.pairwise_cons.mp hpw).1 p hr
            omega
        · rw [if_neg hcond] at hpick ⊢
          have hrpos : 0 < (specBest used T rest).2 := by
            rcases specBest_scanInv used T rest with h | ⟨pp, -, -, hpos, -⟩
            · rw [h] at hpick; exact absurd hpick (by simp)
            · exact hpos
          rcases List.mem_cons.mp hp with he | hr
          · subst he
            rw [not_and_or] at hcond
            have hsn : 0 ≤ similarity_score T (pyLower p.2.text) :=
              similarity_score_nonneg _ _
            rcases hcond with hc | hc
            · have := not_lt.mp hc; linarith
            · have := not_le.mp hc; linarith
          · exact ih hpwr i c hpick p hr hpu hpi

theorem specBest_mem (used : Finset ℕ) (T : List Char) :
    ∀ l p, (specBest used T l).1 = some p → p ∈ l := by
  intro l
  induction l with
  | nil => intro p h; simp [specBest] at h
  | cons q rest ih =>
      intro p h
      by_cases hu : q.1 ∈ used
      · simp only [specBest, if_pos hu] at h
        exact List.mem_cons_of_mem q (ih p h)
      · simp only [specBest, if_neg hu] at h
        split at h
        · dsimp only at h
          rw [Option.some.injEq] at h
          subst h
          exact List.mem_cons_self q rest
        · exact List.mem_cons_of_mem q (ih p h)

theorem enumFrom_fst_ge {α : Type} :
    ∀ (l : List α) (n : ℕ) (p : ℕ × α), p ∈ List.enumFrom n l → n ≤ p.1 := by
  intro l
  induction l with
  | nil => intro n p h; simp at h
  | cons a t ih =>
      intro n p h
      rcases List.mem_cons.mp h with he | hr
      · subst he; exact le_refl n
      · have := ih (n + 1) p hr; omega

theorem enumFrom_pairwise {α : Type} :
    ∀ (l : List α) (n : ℕ),
      (List.enumFrom n l).Pairwise (fun a b => a.1 < b.1) := by
  intro l
  induction l with
  | nil => intro n; simp
  | cons a t ih =>
      intro n
      rw [List.enumFrom_cons, List.pairwise_cons]
      exact ⟨fun p hp => by have := enumFrom_fst_ge t (n + 1) p hp; omega, ih (n + 1)⟩

theorem enum_pairwise {α : Type} (l : List α) :
    l.enum.Pairwise (fun a b => a.1 < b.1) := enumFrom_pairwise l 0

/-- The scoring scan equals the head-recursive `specBest`. -/
theorem process_segment_matching_eq_spec (script_chunks : List ScriptChunk)
    (used : Finset ℕ) (seg : Segment) :
    process_segment_matching script_chunks used seg =
      ⟨seg, (specBest used (pyLower seg.transcribed_text) script_chunks.enum).1,
        (specBest used (pyLower seg.transcribed_text) script_chunks.enum).2⟩ := by
  unfold process_segment_matching
  dsimp only
  rw [foldl_scan_eq_spec used (pyLower seg.transcribed_text)
    script_chunks.enum (none, 0) (Or.inl rfl)]
  rcases specBest_scanInv used (pyLower seg.transcribed_text)
      script_chunks.enum with h | ⟨p, -, -, hpos, -⟩
  · rw [h]
    rw [if_neg (by dsimp only; exact lt_irrefl 0)]
  · rw [if_pos (by dsimp only; exact hpos)]

/-- Characterization of the scoring phase, shared by the later
developments: the recorded best is the maximum-score unconsumed chunk
under the strict `>` update, ties to the lowest index, and a chunk scoring
0 is never recorded. -/
theorem process_segment_matching_core (script_chunks : List ScriptChunk)
    (used : Finset ℕ) (seg : Segment) :
    (process_segment_matching script_chunks used seg).segment = seg ∧
    (∀ p ∈ script_chunks.enum, p.1 ∉ used →
      similarity_score (pyLower seg.transcribed_text) (pyLower p.2.text) ≤
        (process_segment_matching script_chunks used seg).best_score) ∧
    ((process_segment_matching script_chunks used seg).best = none →
      (process_segment_matching script_chunks used seg).best_score = 0 ∧
      ∀ p ∈ script_chunks.enum, p.1 ∉ used →
        similarity_score (pyLower seg.transcribed_text) (pyLower p.2.text) = 0) ∧
    (∀ i c, (process_segment_matching script_chunks used seg).best = some (i, c) →
      (i, c) ∈ script_chunks.enum ∧ i ∉ used ∧
      (process_segment_matching script_chunks used seg).best_score =
        similarity_score (pyLower seg.transcribed_text) (pyLower c.text) ∧
      0 < (process_segment_matching script_chunks used seg).best_score ∧
      ∀ p ∈ script_chunks.enum, p.1 ∉ used → p.1 < i →
        similarity_score (pyLower seg.transcribed_text) (pyLower p.2.text) <
          (process_segment_matching script_chunks used seg).best_score) := by
  rw [process_segment_matching_eq_spec]
  dsimp only
  set T := pyLower seg.transcribed_text with hT
  set l := script_chunks.enum with hl
  refine ⟨rfl, ?_, ?_, ?_⟩
  · intro p hp hpu
    exact specBest_dominates used T l p hp hpu
  · intro hnone
    obtain ⟨h0, hall⟩ := specBest_none used T l hnone
    exact ⟨h0, fun p hp hpu =>
      le_antisymm (hall p hp hpu) (similarity_score_nonneg _ _)⟩
  · intro i c hpick
    have hmem : (i, c) ∈ l := specBest_mem used T l (i, c) hpick
    rcases specBest_scanInv used T l with h | ⟨p, hp1, hp2, hp3, hp4⟩
    · rw [h] at hpick; exact absurd hpick (by simp)
    · have hpe : p = (i, c) := by
        rw [hp1] at hpick
        exact Option.some_injective _ hpick
      subst hpe
      refine ⟨hmem, hp4, by simpa using hp2, hp3, ?_⟩
      intro q hq hqu hqi
      exact specBest_earliest used T l (hl ▸ enum_pairwise script_chunks)
        i c hpick q hq hqu hqi

/-- C2 (amended): the recorded best candidate of the scoring phase is the
maximum-score unconsumed chunk under the strict `>` update, ties to the
lowest index — except that a chunk scoring 0 is never recorded (the
running best starts at 0), so `(none, 0)` is recorded not only when no
unconsumed chunk exists but also when every unconsumed chunk scores 0. -/
theorem process_segment_matching_spec (script_chunks : List ScriptChunk)
    (used : Finset ℕ) (seg : Segment) :
    (process_segment_matching script_chunks used seg).segment = seg ∧
    (∀ p ∈ script_chunks.enum, p.1 ∉ used →
      similarity_score (pyLower seg.transcribed_text) (pyLower p.2.text) ≤
        (process_segment_matching script_chunks used seg).best_score) ∧
    ((process_segment_matching script_chunks used seg).best = none →
      (process_segment_matching script_chunks used seg).best_score = 0 ∧
      ∀ p ∈ script_chunks.enum, p.1 ∉ used →
        similarity_score (pyLower seg.transcribed_text) (pyLower p.2.text) = 0) ∧
    (∀ i c, (process_segment_matching script_chunks used seg).best = some (i, c) →
      (i, c) ∈ script_chunks.enum ∧ i ∉ used ∧
      (process_segment_matching script_chunks used seg).best_score =
        similarity_score (pyLower seg.transcribed_text) (pyLower c.text) ∧
      0 < (process_segment_matching script_chunks used seg).best_score ∧
      ∀ p ∈ script_chunks.enum, p.1 ∉ used → p.1 < i →
        similarity_score (pyLower seg.transcribed_text) (pyLower p.2.text) <
          (process_segment_matching script_chunks used seg).best_score) :=
  process_segment_matching_core script_chunks used seg

/-- C2 (counterexample): with one unconsumed chunk `"b"` and transcribed
text `"a"` every score is 0, so the code records `(None, 0)` although an
unconsumed chunk exists — the claim says `(none, 0)` is recorded only when
no unconsumed chunk exists, and that the recorded best is the
greatest-score chunk (here chunk 0). -/
theorem C2_counterexample :
    ((0 : ℕ) ∉ (∅ : Finset ℕ)) ∧
    (process_segment_matching [⟨"X".data, "b".data⟩] ∅ ⟨0, 1, "a".data⟩).best =
      none ∧
    (process_segment_matching [⟨"X".data, "b".data⟩] ∅
      ⟨0, 1, "a".data⟩).best_score = 0 := by
  exact ⟨by decide, by decide, by decide⟩

/-- C2 witness: the characterization applied at a concrete scan. -/
theorem process_segment_matching_spec_witness :
    (process_segment_matching [⟨"X".data, "ab".data⟩] ∅
      ⟨0, 1, "ab".data⟩).segment = ⟨0, 1, "ab".data⟩ :=
  (process_segment_matching_spec [⟨"X".data, "ab".data⟩] ∅ ⟨0, 1, "ab".data⟩).1

/-! ## Claim C3: the assignment phase -/

theorem enumFrom_fst_lt {α : Type} :
    ∀ (l : List α) (n : ℕ) (p : ℕ × α), p ∈ List.enumFrom n l →
      p.1 < n + l.length := by
  intro l
  induction l with
  | nil => intro n p h; simp at h
  | cons a t ih =>
      intro n p h
      rcases List.mem_cons.mp h with he | hr
      · subst he; simp
      · have := ih (n + 1) p hr
        simp only [List.length_cons]
        omega

/-- `find?` over `enumFrom` returns the first index not in `used`. -/
theorem find?_unused_enumFrom (used : Finset ℕ) :
    ∀ (l : List ScriptChunk) (n i : ℕ) (c : ScriptChunk),
      (List.enumFrom n l).find? (fun p => decide (p.1 ∉ used)) = some (i, c) →
      i ∉ used ∧ (i, c) ∈ List.enumFrom n l ∧
        ∀ j, n ≤ j → j < i → j ∈ used := by
  intro l
  induction l with
  | nil => intro n i c h; simp at h
  | cons a t ih =>
      intro n i c h
      rw [List.enumFrom_cons, List.find?_cons] at h
      by_cases hn : n ∉ used
      · rw [show decide ((n, a).1 ∉ used) = true by simpa using hn] at h
        simp only [Option.some.injEq, Prod.mk.injEq] at h
        obtain ⟨h1, h2⟩ := h
        subst h1; subst h2
        exact ⟨hn, by simp [List.enumFrom_cons], fun j h1 h2 => by omega⟩
      · rw [show decide ((n, a).1 ∉ used) = false by simpa using hn] at h
        simp only at h
        obtain ⟨hi, hmem, hall⟩ := ih (n + 1) i c h
        have hni : n < i := by
          have := enumFrom_fst_ge t (n + 1) (i, c) hmem
          simpa using this
        refine ⟨hi, by simp [List.enumFrom_cons, hmem], fun j hj1 hj2 => ?_⟩
        rcases Nat.eq_or_lt_of_le hj1 with he | hl
        · rw [← he]; simpa using hn
        · exact hall j hl hj2

/-- `firstUnused` characterized: `some (i, c)` is the smallest unconsumed
index with its chunk, `none` means every index is consumed. -/
theorem firstUnused_spec (script_chunks : List ScriptChunk) (used : Finset ℕ) :
    (∀ i c, firstUnused script_chunks used = some (i, c) →
      i ∉ used ∧ (i, c) ∈ script_chunks.enum ∧ i < script_chunks.length ∧
        ∀ j, j < i → j ∈ used) ∧
    (firstUnused script_chunks used = none →
      ∀ j, j < script_chunks.length → j ∈ used) := by
  constructor
  · intro i c h
    obtain ⟨h1, h2, h3⟩ := find?_unused_enumFrom used script_chunks 0 i c h
    refine ⟨h1, h2, ?_, fun j hj => h3 j (by omega) hj⟩
    have := enumFrom_fst_lt script_chunks 0 (i, c) h2
    simpa using this
  · intro h j hj
    have hall := List.find?_eq_none.mp h
    by_contra hju
    have hmem : (j, script_chunks.getD j ⟨[], []⟩) ∈ script_chunks.enum := by
      have : script_chunks.enum.length = script_chunks.length := by simp
      have hg : script_chunks.enum.getD j (0, ⟨[], []⟩) =
          (j, script_chunks.getD j ⟨[], []⟩) := by
        simp [List.getD, List.getElem?_enum, List.getElem?_eq_getElem hj]
      have hjl : j < script_chunks.enum.length := by omega
      have hmm : script_chunks.enum.getD j (0, ⟨[], []⟩) ∈ script_chunks.enum := by
        rw [List.getD_eq_getElem _ _ hjl]
        exact script_chunks.enum.getElem_mem hjl
      rw [hg] at hmm
      exact hmm
    have := hall _ hmem
    simp at this
    exact hju this

/-- Case analysis of one step of the sequential assignment phase, shared
by the later developments. -/
theorem assignStep_cases (script_chunks : List ScriptChunk) (threshold : ℚ)
    (st : Finset ℕ × List (AlignedSeg × ℕ)) (r : MatchResult) :
    (∀ bi bc, r.best = some (bi, bc) → threshold < r.best_score →
      bi ∉ st.1 →
      assignStep script_chunks threshold st r =
        (insert bi st.1, st.2 ++ [(⟨r.segment.start, r.segment.stop, bc.text,
          some bc.character, some r.best_score⟩, bi)])) ∧
    ((r.best = none ∨ ∃ bi bc, r.best = some (bi, bc) ∧
        (¬ threshold < r.best_score ∨ bi ∈ st.1)) →
      (∀ i c, firstUnused script_chunks st.1 = some (i, c) →
        (i ∉ st.1 ∧ (∀ j, j < i → j ∈ st.1)) ∧
        assignStep script_chunks threshold st r =
          (insert i st.1, st.2 ++ [(⟨r.segment.start, r.segment.stop, c.text,
            some c.character, some 0⟩, i)])) ∧
      (firstUnused script_chunks st.1 = none →
        assignStep script_chunks threshold st r = st)) := by
  constructor
  · intro bi bc hb ht hu
    unfold assignStep
    rw [hb]
    dsimp only
    rw [if_pos ht, if_pos hu]
  · intro hfall
    constructor
    · intro i c hfu
      obtain ⟨h1, -, -, h4⟩ := (firstUnused_spec script_chunks st.1).1 i c hfu
      refine ⟨⟨h1, h4⟩, ?_⟩
      unfold assignStep
      rcases hfall with hb | ⟨bi, bc, hb, hcase⟩
      · rw [hb]
        dsimp only
        rw [hfu]
      · rw [hb]
        dsimp only
        rcases hcase with hc | hc
        · rw [if_neg hc, hfu]
        · by_cases ht : threshold < r.best_score
          · rw [if_pos ht, if_neg (by simpa using hc), hfu]
          · rw [if_neg ht, hfu]
    · intro hfu
      unfold assignStep
      rcases hfall with hb | ⟨bi, bc, hb, hcase⟩
      · rw [hb]
        dsimp only
        rw [hfu]
      · rw [hb]
        dsimp only
        rcases hcase with hc | hc
        · rw [if_neg hc, hfu]
        · by_cases ht : threshold < r.best_score
          · rw [if_pos ht, if_neg (by simpa using hc), hfu]
          · rw [if_neg ht, hfu]

/-- C3: one step of the sequential assignment phase.  A segment whose
recorded best cleared the threshold and is still unconsumed claims it with
`matchScore = bestScore`; otherwise (collision or no candidate over the
threshold) the smallest unconsumed index — ascending-order fallback — is
claimed with `matchScore = 0` no matter how well that chunk would have
scored; with every chunk consumed, nothing is emitted. -/
theorem assignStep_spec (script_chunks : List ScriptChunk) (threshold : ℚ)
    (st : Finset ℕ × List (AlignedSeg × ℕ)) (r : MatchResult) :
    (∀ bi bc, r.best = some (bi, bc) → threshold < r.best_score →
      bi ∉ st.1 →
      assignStep script_chunks threshold st r =
        (insert bi st.1, st.2 ++ [(⟨r.segment.start, r.segment.stop, bc.text,
          some bc.character, some r.best_score⟩, bi)])) ∧
    ((r.best = none ∨ ∃ bi bc, r.best = some (bi, bc) ∧
        (¬ threshold < r.best_score ∨ bi ∈ st.1)) →
      (∀ i c, firstUnused script_chunks st.1 = some (i, c) →
        (i ∉ st.1 ∧ (∀ j, j < i → j ∈ st.1)) ∧
        assignStep script_chunks threshold st r =
          (insert i st.1, st.2 ++ [(⟨r.segment.start, r.segment.stop, c.text,
            some c.character, some 0⟩, i)])) ∧
      (firstUnused script_chunks st.1 = none →
        assignStep script_chunks threshold st r = st)) :=
  assignStep_cases script_chunks threshold st r

theorem process_segment_matching_valid (script_chunks : List ScriptChunk)
    (used : Finset ℕ) (seg : Segment) :
    ValidR script_chunks.length
      (process_segment_matching script_chunks used seg) := by
  intro bi bc hb
  obtain ⟨hmem, -, -, -, -⟩ :=
    (process_segment_matching_core script_chunks used seg).2.2.2 bi bc hb
  have := enumFrom_fst_lt script_chunks 0 (bi, bc) hmem
  simpa using this

/-- `assignStep` only appends to the output accumulator. -/
theorem assignStep_acc (script_chunks : List ScriptChunk) (threshold : ℚ)
    (u : Finset ℕ) (a : List (AlignedSeg × ℕ)) (r : MatchResult) :
    assignStep script_chunks threshold (u, a) r =
      ((assignStep script_chunks threshold (u, []) r).1,
        a ++ (assignStep script_chunks threshold (u, []) r).2) := by
  unfold assignStep
  rcases hb : r.best with _ | ⟨bi, bc⟩
  · dsimp only
    rcases hfu : firstUnused script_chunks u with _ | ⟨i, c⟩ <;> simp
  · dsimp only
    by_cases ht : threshold < r.best_score
    · rw [if_pos ht, if_pos ht]
      by_cases hu2 : bi ∉ u
      · rw [if_pos hu2, if_pos hu2]; simp
      · rw [if_neg hu2, if_neg hu2]
        rcases hfu : firstUnused script_chunks u with _ | ⟨i, c⟩ <;> simp
    · rw [if_neg ht, if_neg ht]
      rcases hfu : firstUnused script_chunks u with _ | ⟨i, c⟩ <;> simp

/-- The assignment fold only appends to the output accumulator. -/
theorem foldl_assign_acc (script_chunks : List ScriptChunk) (threshold : ℚ) :
    ∀ (rs : List MatchResult) (u : Finset ℕ) (a : List (AlignedSeg × ℕ)),
      rs.foldl (assignStep script_chunks threshold) (u, a) =
        ((rs.foldl (assignStep script_chunks threshold) (u, [])).1,
          a ++ (rs.foldl (assignStep script_chunks threshold) (u, [])).2) := by
  intro rs
  induction rs with
  | nil => intro u a; simp
  | cons r rs' ih =>
      intro u a
      rw [List.foldl_cons, List.foldl_cons, assignStep_acc]
      rw [ih (assignStep script_chunks threshold (u, []) r).1
        (a ++ (assignStep script_chunks threshold (u, []) r).2)]
      rw [show rs'.foldl (assignStep script_chunks threshold)
          (assignStep script_chunks threshold (u, []) r) =
        rs'.foldl (assignStep script_chunks threshold)
          ((assignStep script_chunks threshold (u, []) r).1,
            (assignStep script_chunks threshold (u, []) r).2) from rfl]
      rw [ih (assignStep script_chunks threshold (u, []) r).1
        (assignStep script_chunks threshold (u, []) r).2]
      simp

/-- One assignment step either claims exactly one fresh in-range index and
emits one record carrying the segment's timing, or (with every chunk
consumed) changes nothing. -/
theorem assignStep_progress (script_chunks : List ScriptChunk) (threshold : ℚ)
    (u : Finset ℕ) (r : MatchResult)
    (hr : ValidR script_chunks.length r)
    (hu : u ⊆ Finset.range script_chunks.length) :
    (u.card < script_chunks.length →
      ∃ i a, i < script_chunks.length ∧ i ∉ u ∧
        assignStep script_chunks threshold (u, []) r = (insert i u, [(a, i)]) ∧
        a.start = r.segment.start ∧ a.stop = r.segment.stop) ∧
    (u.card = script_chunks.length →
      assignStep script_chunks threshold (u, []) r = (u, [])) := by
  constructor
  · intro hcard
    have hex : ∃ j, j < script_chunks.length ∧ j ∉ u := by
      by_contra hne
      push_neg at hne
      have hsub : Finset.range script_chunks.length ⊆ u := by
        intro j hj
        exact hne j (Finset.mem_range.mp hj)
      have := Finset.card_le_card hsub
      rw [Finset.card_range] at this
      omega
    obtain ⟨j, hj1, hj2⟩ := hex
    have hfu : ∃ i c, firstUnused script_chunks u = some (i, c) := by
      rcases hq : firstUnused script_chunks u with _ | ⟨i, c⟩
      · exact absurd ((firstUnused_spec script_chunks u).2 hq j hj1) hj2
      · exact ⟨i, c, rfl⟩
    obtain ⟨i0, c0, hfu⟩ := hfu
    rcases hb : r.best with _ | ⟨bi, bc⟩
    · obtain ⟨⟨hi1, -⟩, heq⟩ :=
        ((assignStep_cases script_chunks threshold (u, []) r).2
          (Or.inl hb)).1 i0 c0 hfu
      obtain ⟨-, -, hi3, -⟩ := (firstUnused_spec script_chunks u).1 i0 c0 hfu
      exact ⟨i0, _, hi3, hi1, by simpa using heq, rfl, rfl⟩
    · by_cases ht : threshold < r.best_score
      · by_cases hbu : bi ∉ u
        · have heq := (assignStep_cases script_chunks threshold (u, []) r).1
            bi bc hb ht hbu
          exact ⟨bi, _, hr bi bc hb, hbu, by simpa using heq, rfl, rfl⟩
        · obtain ⟨⟨hi1, -⟩, heq⟩ :=
            ((assignStep_cases script_chunks threshold (u, []) r).2
              (Or.inr ⟨bi, bc, hb, Or.inr (by simpa using hbu)⟩)).1 i0 c0 hfu
          obtain ⟨-, -, hi3, -⟩ := (firstUnused_spec script_chunks u).1 i0 c0 hfu
          exact ⟨i0, _, hi3, hi1, by simpa using heq, rfl, rfl⟩
      · obtain ⟨⟨hi1, -⟩, heq⟩ :=
          ((assignStep_cases script_chunks threshold (u, []) r).2
            (Or.inr ⟨bi, bc, hb, Or.inl ht⟩)).1 i0 c0 hfu
        obtain ⟨-, -, hi3, -⟩ := (firstUnused_spec script_chunks u).1 i0 c0 hfu
        exact ⟨i0, _, hi3, hi1, by simpa using heq, rfl, rfl⟩
  · intro hcard
    have hue : u = Finset.range script_chunks.length :=
      Finset.eq_of_subset_of_card_le hu (by simp [hcard])
    have hfu : firstUnused script_chunks u = none := by
      rcases hq : firstUnused script_chunks u with _ | ⟨i, c⟩
      · rfl
      · obtain ⟨hi1, -, hi3, -⟩ := (firstUnused_spec script_chunks u).1 i c hq
        exact absurd (hue ▸ Finset.mem_range.mpr hi3) hi1
    rcases hb : r.best with _ | ⟨bi, bc⟩
    · exact ((assignStep_cases script_chunks threshold (u, []) r).2
        (Or.inl hb)).2 hfu
    · have hbu : bi ∈ u := hue ▸ Finset.mem_range.mpr (hr bi bc hb)
      exact ((assignStep_cases script_chunks threshold (u, []) r).2
        (Or.inr ⟨bi, bc, hb, Or.inr hbu⟩)).2 hfu

/-- Full specification of the sequential assignment fold of one batch:
the consumption set only grows by the freshly claimed indices, each claimed
at most once, one record per segment while unconsumed chunks remain, each
record carrying its segment's timing. -/
theorem batch_fold_spec (script_chunks : List ScriptChunk) (threshold : ℚ) :
    ∀ (rs : List MatchResult) (u : Finset ℕ),
      u ⊆ Finset.range script_chunks.length →
      (∀ r ∈ rs, ValidR script_chunks.length r) →
      (rs.foldl (assignStep script_chunks threshold) (u, [])).1 ⊆
        Finset.range script_chunks.length ∧
      (rs.foldl (assignStep script_chunks threshold) (u, [])).2.length =
        min rs.length (script_chunks.length - u.card) ∧
      (rs.foldl (assignStep script_chunks threshold) (u, [])).1.card =
        u.card + (rs.foldl (assignStep script_chunks threshold) (u, [])).2.length ∧
      ((rs.foldl (assignStep script_chunks threshold) (u, [])).2.map
        Prod.snd).Nodup ∧
      (∀ p ∈ (rs.foldl (assignStep script_chunks threshold) (u, [])).2,
        p.2 ∉ u ∧ p.2 < script_chunks.length) ∧
      (∀ j, j ∈ (rs.foldl (assignStep script_chunks threshold) (u, [])).1 ↔
        j ∈ u ∨ ∃ p ∈ (rs.foldl (assignStep script_chunks threshold)
          (u, [])).2, p.2 = j) ∧
      (∀ k, k < (rs.foldl (assignStep script_chunks threshold) (u, [])).2.length →
        ((rs.foldl (assignStep script_chunks threshold) (u, [])).2.getD
          k dPair).1.start = (rs.getD k dRes).segment.start ∧
        ((rs.foldl (assignStep script_chunks threshold) (u, [])).2.getD
          k dPair).1.stop = (rs.getD k dRes).segment.stop) := by
  intro rs
  induction rs with
  | nil =>
      intro u hu hv
      simp only [List.foldl_nil, List.length_nil]
      refine ⟨hu, by simp, by simp, by simp, by simp, fun j => by simp, ?_⟩
      intro k hk
      simp at hk
  | cons r rs' ih =>
      intro u hu hv
      have hcardle : u.card ≤ script_chunks.length := by
        have := Finset.card_le_card hu
        simpa using this
      rw [List.foldl_cons]
      rcases Nat.lt_or_ge u.card script_chunks.length with hlt | hge
      · -- an unconsumed chunk exists: the step emits exactly one record
        obtain ⟨i, a, hiC, hiu, hstep, hsa, hso⟩ :=
          (assignStep_progress script_chunks threshold u r
            (hv r (by simp)) hu).1 hlt
        rw [hstep,
          show ((insert i u, [(a, i)]) :
            Finset ℕ × List (AlignedSeg × ℕ)) =
            ((insert i u : Finset ℕ), ([(a, i)] :
              List (AlignedSeg × ℕ))) from rfl,
          foldl_assign_acc script_chunks threshold rs' (insert i u) [(a, i)]]
        have hu' : insert i u ⊆ Finset.range script_chunks.length := by
          intro x hx
          rcases Finset.mem_insert.mp hx with he | hm
          · exact Finset.mem_range.mpr (he ▸ hiC)
          · exact hu hm
        obtain ⟨g1, g2, g3, g4, g5, g6, g7⟩ :=
          ih (insert i u) hu' (fun x hx => hv x (by simp [hx]))
        set G := rs'.foldl (assignStep script_chunks threshold)
          ((insert i u : Finset ℕ), ([] : List (AlignedSeg × ℕ))) with hG
        have hcard' : (insert i u).card = u.card + 1 :=
          Finset.card_insert_of_not_mem hiu
        have hG2 : G.2.length =
            min rs'.length (script_chunks.length - (u.card + 1)) := by
          rw [g2, hcard']
        have hG3 : G.1.card = u.card + 1 + G.2.length := by
          rw [g3, hcard']
        refine ⟨g1, ?_, ?_, ?_, ?_, ?_, ?_⟩
        · simp only [List.length_append, List.length_singleton, List.length_cons,
            List.length_nil]
          rw [hG2]
          omega
        · simp only [List.length_append, List.length_singleton, List.length_cons,
            List.length_nil]
          rw [hG3]
          omega
        · simp only [List.map_append, List.map_cons, List.map_nil]
          rw [List.nodup_append]
          refine ⟨by simp, g4, ?_⟩
          intro x hx hmem2
          simp only [List.mem_singleton] at hx
          obtain ⟨p, hp, hpy⟩ := List.mem_map.mp hmem2
          have hpn := (g5 p hp).1
          rw [hpy, hx] at hpn
          exact hpn (Finset.mem_insert_self i u)
        · intro p hp
          rcases List.mem_append.mp hp with hp1 | hp2
          · simp only [List.mem_singleton] at hp1
            subst hp1
            exact ⟨hiu, hiC⟩
          · obtain ⟨hn, hc⟩ := g5 p hp2
            exact ⟨fun hm => hn (Finset.mem_insert_of_mem hm), hc⟩
        · intro j
          rw [g6 j]
          constructor
          · rintro (hj | ⟨p, hp, hpj⟩)
            · rcases Finset.mem_insert.mp hj with he | hm
              · exact Or.inr ⟨(a, i), by simp, he.symm⟩
              · exact Or.inl hm
            · exact Or.inr ⟨p, by simp [hp], hpj⟩
          · rintro (hj | ⟨p, hp, hpj⟩)
            · exact Or.inl (Finset.mem_insert_of_mem hj)
            · rcases List.mem_append.mp hp with hp1 | hp2
              · simp only [List.mem_singleton] at hp1
                subst hp1
                exact Or.inl (hpj ▸ Finset.mem_insert_self i u)
              · exact Or.inr ⟨p, hp2, hpj⟩
        · intro k hk
          rcases k with _ | k'
          · simp only [List.getD, List.getElem?_append_left
              (by simp : (0:ℕ) < ([(a, i)] : List (AlignedSeg × ℕ)).length)]
            simpa using ⟨hsa, hso⟩
          · simp only [List.length_append, List.length_singleton] at hk
            have hk' : k' < G.2.length := by omega
            have e1 : ([(a, i)] ++ G.2).getD (k' + 1) dPair =
                G.2.getD k' dPair := by
              simp [List.getD, List.getElem?_append_right
                (by simp : ([(a, i)] : List (AlignedSeg × ℕ)).length ≤ k' + 1)]
            have e2 : (r :: rs').getD (k' + 1) dRes = rs'.getD k' dRes := by
              simp [List.getD]
            rw [e1, e2]
            exact g7 k' hk'
      · -- the consumption set is full: nothing is emitted any more
        have hcard : u.card = script_chunks.length := by omega
        rw [(assignStep_progress script_chunks threshold u r
          (hv r (by simp)) hu).2 hcard]
        obtain ⟨g1, g2, g3, g4, g5, g6, g7⟩ :=
          ih u hu (fun x hx => hv x (by simp [hx]))
        refine ⟨g1, ?_, g3, g4, g5, g6, ?_⟩
        · rw [g2, hcard]
          simp
        · intro k hk
          have := g7 k hk
          rw [g2, hcard] at hk
          simp at hk

/-- Master specification of the batch loop: distinct claimed indices, all
in range and fresh, output length `min(#segments, #chunks − #consumed)`,
and the `k`-th record copies the `k`-th segment's timing. -/
theorem alignGo_spec (script_chunks : List ScriptChunk) (threshold : ℚ)
    (mw : Nat) (hmw : 0 < mw) :
    ∀ (fuel : ℕ) (segs : List Segment) (used : Finset ℕ),
      segs.length ≤ fuel →
      used ⊆ Finset.range script_chunks.length →
      ((alignGo script_chunks threshold mw fuel segs used).map Prod.snd).Nodup ∧
      (∀ p ∈ alignGo script_chunks threshold mw fuel segs used,
        p.2 ∉ used ∧ p.2 < script_chunks.length) ∧
      (alignGo script_chunks threshold mw fuel segs used).length =
        min segs.length (script_chunks.length - used.card) ∧
      (∀ k, k < (alignGo script_chunks threshold mw fuel segs used).length →
        ((alignGo script_chunks threshold mw fuel segs used).getD
          k dPair).1.start = (segs.getD k dSeg).start ∧
        ((alignGo script_chunks threshold mw fuel segs used).getD
          k dPair).1.stop = (segs.getD k dSeg).stop) := by
  intro fuel
  induction fuel with
  | zero =>
      intro segs used hlen hu
      have hnil : segs = [] := List.eq_nil_of_length_eq_zero (by omega)
      subst hnil
      simp [alignGo]
  | succ fuel ih =>
      intro segs used hlen hu
      rcases segs with _ | ⟨s, rest⟩
      · simp [alignGo]
      · simp only [alignGo]
        set rs := ((s :: rest).take mw).map
          (process_segment_matching script_chunks used) with hrs
        set B := rs.foldl (assignStep script_chunks threshold) (used, [])
          with hB
        have hrsv : ∀ r ∈ rs, ValidR script_chunks.length r := by
          intro r hr
          rw [hrs] at hr
          obtain ⟨seg, -, hseg⟩ := List.mem_map.mp hr
          rw [← hseg]
          exact process_segment_matching_valid script_chunks used seg
        obtain ⟨b1, b2, b3, b4, b5, b6, b7⟩ :=
          batch_fold_spec script_chunks threshold rs used hu hrsv
        have hrslen : rs.length = min mw (s :: rest).length := by
          rw [hrs]; simp
        have hseg : ∀ k, k < rs.length →
            (rs.getD k dRes).segment = (s :: rest).getD k dSeg := by
          intro k hk
          have hk1 : k < ((s :: rest).take mw).length := by
            rw [hrs] at hk; simpa using hk
          have hk2 : k < (s :: rest).length := by
            simp only [List.length_take] at hk1; omega
          have e1 : rs.getD k dRes = process_segment_matching script_chunks
              used (((s :: rest).take mw).getD k dSeg) := by
            have hkm : k < (((s :: rest).take mw).map
                (process_segment_matching script_chunks used)).length := by
              rw [hrs] at hk; exact hk
            rw [hrs, List.getD_eq_getElem _ _ hkm, List.getD_eq_getElem _ _ hk1,
              List.getElem_map]
          have e2 : ((s :: rest).take mw).getD k dSeg =
              (s :: rest).getD k dSeg := by
            have hkm : k < mw := by simp only [List.length_take] at hk1; omega
            simp [List.getD, List.getElem?_take_of_lt hkm]
          rw [e1, e2,
            (process_segment_matching_core script_chunks used _).1]
        have hrest : ((s :: rest).drop mw).length ≤ fuel := by
          simp only [List.length_drop, List.length_cons]
          simp only [List.length_cons] at hlen
          omega
        obtain ⟨i1, i2, i3, i4⟩ := ih ((s :: rest).drop mw) B.1 hrest b1
        set R := alignGo script_chunks threshold mw fuel
          ((s :: rest).drop mw) B.1 with hR
        have husedB : ∀ j, j ∈ used → j ∈ B.1 := fun j hj =>
          (b6 j).mpr (Or.inl hj)
        have hmapB : ∀ x, x ∈ List.map Prod.snd B.2 → x ∈ B.1 := by
          intro x hx
          obtain ⟨p, hp, hpx⟩ := List.mem_map.mp hx
          exact (b6 x).mpr (Or.inr ⟨p, hp, hpx⟩)
        refine ⟨?_, ?_, ?_, ?_⟩
        · rw [List.map_append, List.nodup_append]
          refine ⟨b4, i1, ?_⟩
          intro x hx hx2
          obtain ⟨p, hp, hpx⟩ := List.mem_map.mp hx2
          have := (i2 p hp).1
          rw [hpx] at this
          exact this (hmapB x hx)
        · intro p hp
          rcases List.mem_append.mp hp with hp1 | hp2
          · exact b5 p hp1
          · obtain ⟨hn, hc⟩ := i2 p hp2
            exact ⟨fun hm => hn (husedB p.2 hm), hc⟩
        · have h2 : B.2.length =
              min (min mw (rest.length + 1)) (script_chunks.length - used.card) := by
            rw [b2, hrslen]; simp
          have h3 : R.length = min (rest.length + 1 - mw)
              (script_chunks.length - B.1.card) := by
            rw [i3]; simp
          have h4 : B.1.card = used.card + B.2.length := b3
          rw [List.length_append]
          simp only [List.length_cons]
          simp only [List.length_cons] at hlen
          omega
        · intro k hk
          rw [List.length_append] at hk
          rcases Nat.lt_or_ge k B.2.length with hkb | hkb
          · have e1 : (B.2 ++ R).getD k dPair = B.2.getD k dPair := by
              simp [List.getD, List.getElem?_append_left hkb]
            have hkr : k < rs.length := by rw [b2] at hkb; omega
            obtain ⟨c1, c2⟩ := b7 k hkb
            rw [e1, c1, c2, hseg k hkr]
            exact ⟨rfl, rfl⟩
          · have hbm : B.2.length = mw := by
              have e3 : R.length = min (rest.length + 1 - mw)
                  (script_chunks.length - B.1.card) := by
                rw [i3]; simp
              have e4 : B.1.card = used.card + B.2.length := b3
              have e2 : B.2.length = min (min mw (rest.length + 1))
                  (script_chunks.length - used.card) := by
                rw [b2, hrslen]; simp
              omega
            have e1 : (B.2 ++ R).getD k dPair =
                R.getD (k - B.2.length) dPair := by
              simp [List.getD, List.getElem?_append_right hkb]
            have hkR : k - B.2.length < R.length := by omega
            obtain ⟨c1, c2⟩ := i4 (k - B.2.length) hkR
            have e2 : ((s :: rest).drop mw).getD (k - B.2.length) dSeg =
                (s :: rest).getD k dSeg := by
              have : mw + (k - B.2.length) = k := by
                rw [hbm] at hkb ⊢; omega
              simp [List.getD, List.getElem?_drop, this]
            rw [e1, c1, c2, e2]
            exact ⟨rfl, rfl⟩

/-! ## Claim theorems for the whole aligner -/

/-- C1: at-most-once consumption.  Every successful run of the aligner
claims pairwise-distinct chunk indices, all in range: no two emitted
records reference the same source chunk. -/
theorem align_at_most_once (script_chunks : List ScriptChunk)
    (whisper_segments : List Segment) (threshold : ℚ) (mw : Nat)
    (l : List (AlignedSeg × ℕ)) (hmw : 0 < mw)
    (h : align_annotated script_chunks whisper_segments threshold mw =
      some l) :
    (l.map Prod.snd).Nodup ∧ ∀ p ∈ l, p.2 < script_chunks.length := by
  unfold align_annotated at h
  rw [if_pos hmw] at h
  injection h with h
  obtain ⟨n1, n2, -, -⟩ := alignGo_spec script_chunks threshold mw hmw
    whisper_segments.length whisper_segments ∅ le_rfl (Finset.empty_subset _)
  rw [← h]
  exact ⟨n1, fun p hp => (n2 p hp).2⟩

set_option maxRecDepth 40000 in
/-- C1 witness: a concrete two-chunk, two-segment run. -/
theorem align_at_most_once_witness :
    (0 : ℕ) < 4 ∧
    align_annotated chunksA segsB (mkRat 3 10) 4 = some pairsB ∧
    ((pairsB.map Prod.snd).Nodup ∧ ∀ p ∈ pairsB, p.2 < chunksA.length) :=
  ⟨by decide, by decide,
    align_at_most_once chunksA segsB (mkRat 3 10) 4 pairsB (by decide)
      (by decide)⟩

/-- C10: a successful run emits exactly `min(S, C)` subtitles, and the
`k`-th one copies its start and end from the `k`-th segment; only the
trailing `S − min(S, C)` segments go without a subtitle. -/
theorem align_length_and_timing (script_chunks : List ScriptChunk)
    (whisper_segments : List Segment) (threshold : ℚ) (mw : Nat)
    (out : List AlignedSeg) (hmw : 0 < mw)
    (h : align_script_chunks_with_segments script_chunks whisper_segments
      threshold mw = some out) :
    out.length = min whisper_segments.length script_chunks.length ∧
    ∀ k, k < out.length →
      (out.getD k dAligned).start = (whisper_segments.getD k dSeg).start ∧
      (out.getD k dAligned).stop = (whisper_segments.getD k dSeg).stop := by
  obtain ⟨-, -, l3, l4⟩ := alignGo_spec script_chunks threshold mw hmw
    whisper_segments.length whisper_segments ∅ le_rfl (Finset.empty_subset _)
  set L := alignGo script_chunks threshold mw whisper_segments.length
    whisper_segments ∅ with hL
  have he : align_script_chunks_with_segments script_chunks whisper_segments
      threshold mw = some (L.map Prod.fst) := by
    unfold align_script_chunks_with_segments align_annotated
    rw [if_pos hmw]
    rfl
  rw [he] at h
  injection h with h
  constructor
  · rw [← h, List.length_map, l3, Finset.card_empty]
    omega
  · intro k hk
    have hk1 : k < L.length := by
      rw [← h, List.length_map] at hk
      exact hk
    have hk2 : k < (L.map Prod.fst).length := by simpa using hk1
    have hg : (L.map Prod.fst).getD k dAligned = (L.getD k dPair).1 := by
      rw [List.getD_eq_getElem _ _ hk2, List.getD_eq_getElem _ _ hk1,
        List.getElem_map]
    obtain ⟨t1, t2⟩ := l4 k hk1
    rw [← h, hg]
    exact ⟨t1, t2⟩

set_option maxRecDepth 40000 in
/-- C10 witness: three segments against two chunks give exactly two
subtitles, copying the first two segments' timings. -/
theorem align_length_and_timing_witness :
    (0 : ℕ) < 4 ∧
    align_script_chunks_with_segments chunksA segsA (mkRat 3 10) 4 =
      some outA ∧
    (outA.length = min segsA.length chunksA.length ∧
     ∀ k, k < outA.length →
       (outA.getD k dAligned).start = (segsA.getD k dSeg).start ∧
       (outA.getD k dAligned).stop = (segsA.getD k dSeg).stop) :=
  ⟨by decide, by decide,
    align_length_and_timing chunksA segsA (mkRat 3 10) 4 outA (by decide)
      (by decide)⟩

/-- C4: the aligner never raises — for every chunk list and segment list
it returns a list, at most one record per segment; and once the chunks run
out the trailing segments are silently dropped, so with fewer chunks than
segments the output is strictly shorter than the segment list. -/
theorem align_never_raises (script_chunks : List ScriptChunk)
    (whisper_segments : List Segment) (threshold : ℚ) (mw : Nat)
    (hmw : 0 < mw) :
    (∃ out, align_script_chunks_with_segments script_chunks whisper_segments
        threshold mw = some out ∧
      out.length ≤ whisper_segments.length) ∧
    (script_chunks.length < whisper_segments.length →
      ∀ out, align_script_chunks_with_segments script_chunks whisper_segments
          threshold mw = some out →
        out.length < whisper_segments.length) := by
  obtain ⟨-, -, l3, -⟩ := alignGo_spec script_chunks threshold mw hmw
    whisper_segments.length whisper_segments ∅ le_rfl (Finset.empty_subset _)
  set L := alignGo script_chunks threshold mw whisper_segments.length
    whisper_segments ∅ with hL
  have he : align_script_chunks_with_segments script_chunks whisper_segments
      threshold mw = some (L.map Prod.fst) := by
    unfold align_script_chunks_with_segments align_annotated
    rw [if_pos hmw]
    rfl
  constructor
  · refine ⟨L.map Prod.fst, he, ?_⟩
    rw [List.length_map, l3, Finset.card_empty]
    omega
  · intro hlt out hout
    rw [he] at hout
    injection hout with hout
    rw [← hout, List.length_map, l3, Finset.card_empty]
    omega

/-- C4 witness: no chunk at all — the run still returns a list, and it is
strictly shorter than the one-segment input. -/
theorem align_never_raises_witness :
    (∃ out, align_script_chunks_with_segments [] [⟨0, 1, "a".data⟩]
        (mkRat 3 10) 4 = some out ∧
      out.length ≤ ([⟨(0 : ℚ), 1, "a".data⟩] : List Segment).length) ∧
    (([] : List ScriptChunk).length <
        ([⟨(0 : ℚ), 1, "a".data⟩] : List Segment).length →
      ∀ out, align_script_chunks_with_segments [] [⟨0, 1, "a".data⟩]
          (mkRat 3 10) 4 = some out →
        out.length < ([⟨(0 : ℚ), 1, "a".data⟩] : List Segment).length) :=
  align_never_raises [] [⟨0, 1, "a".data⟩] (mkRat 3 10) 4 (by decide)

/-! ## Claim C5: no-dialog behavior of the two pipelines -/

set_option maxRecDepth 40000 in
/-- C5 (counterexample): with a script in which no dialog is recognized
and a non-empty transcription, `transcribe_audio_to_srt` does not fail the
run: it falls back to the raw Whisper transcription and produces subtitle
output from that other source. -/
theorem C5_counterexample :
    extract_dialog_from_script "INT. HOUSE - NIGHT".data = [] ∧
    transcribe_pipeline (fun s => [s]) (some "INT. HOUSE - NIGHT".data)
        [⟨0, 1, "hello".data⟩] =
      some [⟨0, 1, "hello".data, none, none⟩] ∧
    transcribe_pipeline (fun s => [s]) (some "INT. HOUSE - NIGHT".data)
        [⟨0, 1, "hello".data⟩] ≠ none := by
  have hd : extract_dialog_from_script "INT. HOUSE - NIGHT".data = [] := by
    decide
  refine ⟨hd, ?_, ?_⟩ <;>
    simp [transcribe_pipeline, hd, whisper_segments_to_subtitles]

/-- C5 (amended): when the extractor recognizes no dialog, `app.py`'s
`process_files` does abort the run with no output, but
`transcribe_audio_to_srt` continues with the raw Whisper transcription as
the subtitle source. -/
theorem no_dialog_behavior (sentTok : List Char → List (List Char))
    (content : List Char) (threshold : ℚ) (max_words : Nat)
    (segs : List Segment) (hd : extract_dialog_from_script content = [])
    (hs : segs ≠ []) :
    process_files_pipeline sentTok content threshold max_words segs = none ∧
    transcribe_pipeline sentTok (some content) segs =
      some (whisper_segments_to_subtitles segs) := by
  constructor
  · unfold process_files_pipeline
    simp [hd]
  · unfold transcribe_pipeline
    rw [if_neg hs]
    simp [hd]

set_option maxRecDepth 40000 in
/-- C5 amended witness: a concrete dialog-free script. -/
theorem no_dialog_behavior_witness :
    extract_dialog_from_script "scene one".data = [] ∧
    ([⟨(0 : ℚ), 1, "hi".data⟩] : List Segment) ≠ [] ∧
    (process_files_pipeline (fun s => [s]) "scene one".data (mkRat 3 10) 10
        [⟨0, 1, "hi".data⟩] = none ∧
     transcribe_pipeline (fun s => [s]) (some "scene one".data)
        [⟨0, 1, "hi".data⟩] =
       some (whisper_segments_to_subtitles [⟨0, 1, "hi".data⟩])) :=
  ⟨by decide, by decide,
    no_dialog_behavior (fun s => [s]) "scene one".data (mkRat 3 10) 10
      [⟨0, 1, "hi".data⟩] (by decide) (by decide)⟩

/-! ## Claim C6: what the dialog extractor recognizes -/

set_option maxRecDepth 40000 in
/-- C6 (counterexample): a label preceded by other text on the same line
does open a block (the regex search is not anchored to line starts), and a
blank line does truncate the utterance — both contrary to the claim. -/
theorem C6_counterexample :
    extract_dialog_from_script "x B: hi".data = [⟨"B".data, "hi".data⟩] ∧
    extract_dialog_from_script "x B: hi".data ≠ [] ∧
    extract_dialog_from_script "A: one\n\ntwo".data =
      [⟨"A".data, "one".data⟩] ∧
    extract_dialog_from_script "A: one\n\ntwo".data ≠
      [⟨"A".data, "one two".data⟩] := by
  exact ⟨by decide, by decide, by decide, by decide⟩

set_option maxRecDepth 40000 in
/-- C6 (amended): the extractor finds a label wherever the scan reaches
one, not only at line starts; an utterance ends at a blank line, at a
newline followed by a label (optionally with a parenthetical aside), or at
the end of input, and inner newlines are collapsed to single spaces. -/
theorem extract_dialog_behavior :
    extract_dialog_from_script "x B: hi".data = [⟨"B".data, "hi".data⟩] ∧
    extract_dialog_from_script "A: one\nmore\nB (waving): two".data =
      [⟨"A".data, "one more".data⟩, ⟨"B".data, "two".data⟩] ∧
    extract_dialog_from_script "A: one\n\ntail B: two".data =
      [⟨"A".data, "one".data⟩, ⟨"B".data, "two".data⟩] := by
  exact ⟨by decide, by decide, by decide⟩

end UW
